import Mathlib

/-!
Verification of the jsonmapper library (jsonmapper.py): a schema-driven
bidirectional codec between raw JSON-like value trees and typed records.

The Python source is shallowly embedded: Python objects become the `Val`
inductive; the mutable containers (lists and dicts) live in an explicit
`Heap` and are addressed by `Val.ref`, so aliasing and in-place mutation
are modelled faithfully; exceptions become `Except PErr`; the mutually
recursive conversion and construction functions are written with an
explicit fuel parameter (Python recursion has no termination guarantee,
so a fuel-indexed interpreter is the standard total encoding; every
theorem either quantifies over fuel or is conditional on a successful,
fuel-sufficient run).
-/

set_option maxHeartbeats 1000000

namespace JsonMapper

/-- Pure, reference-free JSON value trees. These are used to observe heap
structures up to content equality (what Python dict and list equality
compares), e.g. for the round-trip claims. -/
inductive PureVal where
  | null
  | boolV (b : Bool)
  | intV (n : Int)
  | strV (s : String)
  | listV (xs : List PureVal)
  | dictV (es : List (String × PureVal))

/-- Model of datetime.date (year, month, day). -/
structure PyDate where
  year : Nat
  month : Nat
  day : Nat
deriving DecidableEq, Repr

/-- Model of datetime.datetime (naive, as produced and consumed by the
source: year, month, day, hour, minute, second, microsecond). -/
structure PyDatetime where
  year : Nat
  month : Nat
  day : Nat
  hour : Nat
  minute : Nat
  second : Nat
  microsecond : Nat
deriving DecidableEq, Repr

/-- Zero-pad a numeral to two digits, as strftime and isoformat do. -/
def pad2 (n : Nat) : String :=
  if n < 10 then "0" ++ toString n else toString n

/-- Zero-pad a numeral to four digits. -/
def pad4 (n : Nat) : String :=
  if n < 10 then "000" ++ toString n
  else if n < 100 then "00" ++ toString n
  else if n < 1000 then "0" ++ toString n
  else toString n

/-- Zero-pad a numeral to six digits (isoformat microseconds). -/
def pad6 (n : Nat) : String :=
  if n < 10 then "00000" ++ toString n
  else if n < 100 then "0000" ++ toString n
  else if n < 1000 then "000" ++ toString n
  else if n < 10000 then "00" ++ toString n
  else if n < 100000 then "0" ++ toString n
  else toString n

/-- Model of datetime.date.isoformat. -/
def PyDate.isoformat (d : PyDate) : String :=
  pad4 d.year ++ "-" ++ pad2 d.month ++ "-" ++ pad2 d.day

/-- Model of datetime.datetime.isoformat (default separator T; the
fractional part appears exactly when microsecond is nonzero). -/
def PyDatetime.isoformat (d : PyDatetime) : String :=
  pad4 d.year ++ "-" ++ pad2 d.month ++ "-" ++ pad2 d.day ++ "T" ++
    pad2 d.hour ++ ":" ++ pad2 d.minute ++ ":" ++ pad2 d.second ++
    (if d.microsecond = 0 then "" else "." ++ pad6 d.microsecond)

/-- Model of str(datetime): isoformat with a space separator. -/
def PyDatetime.strRepr (d : PyDatetime) : String :=
  pad4 d.year ++ "-" ++ pad2 d.month ++ "-" ++ pad2 d.day ++ " " ++
    pad2 d.hour ++ ":" ++ pad2 d.minute ++ ":" ++ pad2 d.second ++
    (if d.microsecond = 0 then "" else "." ++ pad6 d.microsecond)

/-- Model of datetime.replace setting microsecond to 0. -/
def PyDatetime.replaceMicro0 (d : PyDatetime) : PyDatetime :=
  { d with microsecond := 0 }

/-- Value of a decimal digit character. -/
def digitVal (c : Char) : Nat := c.toNat - '0'.toNat

/-- Tokens of the fixed strptime format string used by the source
(percent-Y, percent-m, percent-d, percent-H, percent-M, percent-S and the
literal separators). -/
inductive Tok where
  | lit (c : Char)
  | year
  | month
  | day
  | hour
  | minute
  | second
deriving DecidableEq, Repr

/-- Candidate matches of one token against a character stream, in the
alternation order of the regular expressions CPython strptime compiles:
Y matches exactly four digits; m is 1[0-2], 0[1-9] or [1-9]; d is 3[01],
[12] digit, 0[1-9] or [1-9]; H is 2[0-3], [0-1] digit or a digit; M is
[0-5] digit or a digit; S is 6[0-1], [0-5] digit or a digit. Each
candidate is the parsed value and the remaining characters. -/
def tokAlts : Tok → List Char → List (Nat × List Char)
  | .lit c, cs =>
    match cs with
    | c2 :: rest => if c2 = c then [(0, rest)] else []
    | [] => []
  | .year, cs =>
    match cs with
    | c1 :: c2 :: c3 :: c4 :: rest =>
      if c1.isDigit && c2.isDigit && c3.isDigit && c4.isDigit then
        [(digitVal c1 * 1000 + digitVal c2 * 100 + digitVal c3 * 10 + digitVal c4, rest)]
      else []
    | _ => []
  | .month, cs =>
    match cs with
    | c1 :: rest1 =>
      (match rest1 with
       | c2 :: rest2 =>
         (if c1 = '1' && '0' ≤ c2 && c2 ≤ '2' then [(10 + digitVal c2, rest2)] else []) ++
         (if c1 = '0' && '1' ≤ c2 && c2 ≤ '9' then [(digitVal c2, rest2)] else [])
       | [] => []) ++
      (if '1' ≤ c1 && c1 ≤ '9' then [(digitVal c1, rest1)] else [])
    | [] => []
  | .day, cs =>
    match cs with
    | c1 :: rest1 =>
      (match rest1 with
       | c2 :: rest2 =>
         (if c1 = '3' && '0' ≤ c2 && c2 ≤ '1' then [(30 + digitVal c2, rest2)] else []) ++
         (if ('1' ≤ c1 && c1 ≤ '2') && c2.isDigit then [(10 * digitVal c1 + digitVal c2, rest2)] else []) ++
         (if c1 = '0' && '1' ≤ c2 && c2 ≤ '9' then [(digitVal c2, rest2)] else [])
       | [] => []) ++
      (if '1' ≤ c1 && c1 ≤ '9' then [(digitVal c1, rest1)] else [])
    | [] => []
  | .hour, cs =>
    match cs with
    | c1 :: rest1 =>
      (match rest1 with
       | c2 :: rest2 =>
         (if c1 = '2' && '0' ≤ c2 && c2 ≤ '3' then [(20 + digitVal c2, rest2)] else []) ++
         (if ('0' ≤ c1 && c1 ≤ '1') && c2.isDigit then [(10 * digitVal c1 + digitVal c2, rest2)] else [])
       | [] => []) ++
      (if c1.isDigit then [(digitVal c1, rest1)] else [])
    | [] => []
  | .minute, cs =>
    match cs with
    | c1 :: rest1 =>
      (match rest1 with
       | c2 :: rest2 =>
         if ('0' ≤ c1 && c1 ≤ '5') && c2.isDigit then [(10 * digitVal c1 + digitVal c2, rest2)] else []
       | [] => []) ++
      (if c1.isDigit then [(digitVal c1, rest1)] else [])
    | [] => []
  | .second, cs =>
    match cs with
    | c1 :: rest1 =>
      (match rest1 with
       | c2 :: rest2 =>
         (if c1 = '6' && '0' ≤ c2 && c2 ≤ '1' then [(60 + digitVal c2, rest2)] else []) ++
         (if ('0' ≤ c1 && c1 ≤ '5') && c2.isDigit then [(10 * digitVal c1 + digitVal c2, rest2)] else [])
       | [] => []) ++
      (if c1.isDigit then [(digitVal c1, rest1)] else [])
    | [] => []

/-- Backtracking matcher for a token sequence: like the regular
expression CPython strptime builds, but additionally requiring the whole
input to be consumed (strptime raises on unconverted trailing data; both
failures collapse to the same ValueError in the source, so requiring full
consumption during the match gives the same success/failure behaviour). -/
def runToks : List Tok → List Char → Option (List Nat)
  | [], cs => if cs.isEmpty then some [] else none
  | t :: ts, cs =>
    (tokAlts t cs).findSome? fun vr => (runToks ts vr.2).map fun vs => vr.1 :: vs

/-- Format tokens of percent-Y - percent-m - percent-d T percent-H :
percent-M : percent-S, the format DateTimeField parses. -/
def dtFormatToks : List Tok :=
  [.year, .lit '-', .month, .lit '-', .day, .lit 'T',
   .hour, .lit ':', .minute, .lit ':', .second]

/-- Gregorian leap year rule, as the datetime module uses. -/
def isLeap (y : Nat) : Bool :=
  y % 4 = 0 && (y % 100 ≠ 0 || y % 400 = 0)

/-- Days in a month, as the datetime constructor validates. -/
def daysInMonth (y m : Nat) : Nat :=
  if m = 2 then (if isLeap y then 29 else 28)
  else if m = 4 || m = 6 || m = 9 || m = 11 then 30
  else 31

/-- Strip everything from the first dot on: value.split with a dot,
taking the first part (the source comment: strip out microseconds). -/
def stripMicro (cs : List Char) : List Char := cs.takeWhile (· ≠ '.')

/-- Remove all trailing Z characters: value.rstrip of Z (the source
comment: remove timezone separator). -/
def rstripZ (cs : List Char) : List Char :=
  (cs.reverse.dropWhile (· = 'Z')).reverse

/-- DateTimeField text parsing: strip the fractional part, strip trailing
Z, run strptime on the fixed format, then apply the datetime constructor
checks (strptime itself already bounds month to 1-12, hour to 0-23 and
minute to 0-59, but admits seconds 60 and 61 and any day 1-31; the
datetime constructor rejects those, and the source turns every such
ValueError into its own Invalid ISO ValueError). -/
def parseDateTimeText (s : String) : Option PyDatetime :=
  let cs := rstripZ (stripMicro s.data)
  match runToks dtFormatToks cs with
  | some [y, _, m, _, d, _, hh, _, mm, _, ss] =>
    if 1 ≤ y && y ≤ 9999 && 1 ≤ m && m ≤ 12 && 1 ≤ d && d ≤ daysInMonth y m
        && hh ≤ 23 && mm ≤ 59 && ss ≤ 59 then
      some ⟨y, m, d, hh, mm, ss, 0⟩
    else none
  | _ => none

/-- Parse of Python int applied to text: surrounding spaces allowed, an
optional sign, then a nonempty digit string. -/
def parseIntText (s : String) : Option Int :=
  let cs := ((s.data.dropWhile (· = ' ')).reverse.dropWhile (· = ' ')).reverse
  let digits : List Char → Option Nat := fun ds =>
    if ds ≠ [] && ds.all Char.isDigit then
      some (ds.foldl (fun acc c => acc * 10 + digitVal c) 0)
    else none
  match cs with
  | '-' :: ds => (digits ds).map fun n => -(n : Int)
  | '+' :: ds => (digits ds).map fun n => (n : Int)
  | ds => (digits ds).map fun n => (n : Int)

/-- Python exceptions raised by the source: ValueError (bad lexical
form), TypeError (wrong arity or wrong operand type), IndexError, and a
marker for an exhausted fuel budget of the interpreter. -/
inductive PErr where
  | valueError (msg : String)
  | typeError (msg : String)
  | indexError (msg : String)
  | fuelExhausted
deriving DecidableEq, Repr

mutual
/-- Python runtime values, as the source manipulates them: None, bools,
ints, text, references to heap-allocated mutable containers (lists and
dicts), datetime values, Mapping (record) instances carrying their class
and the address of their backing dict, and ListField.Proxy instances
carrying the wrapped value and the element field descriptor. -/
inductive Val where
  | null
  | boolV (b : Bool)
  | intV (n : Int)
  | strV (s : String)
  | ref (a : Nat)
  | dt (d : PyDatetime)
  | dateV (d : PyDate)
  | record (cls : MappingCls) (dataAddr : Nat)
  | proxy (target : Val) (field : Field)
/-- Default of a field descriptor: a plain (non-callable) value, the two
copy-per-call producers that DictField.init and ListField.init install
(the lambdas copying a captured container whose contents are recorded
here; nothing in the source mutates the captured container, so recording
its contents is faithful), or an arbitrary pure zero-argument callable
(such as datetime.now in the doctests). -/
inductive Dflt where
  | plain (v : Val)
  | copyDict (entries : List (String × Val))
  | copyList (items : List Val)
  | fnPure (f : Unit → Val)
/-- Field descriptor: name (None until bound by the metaclass), default
(None when absent), and the concrete field kind. -/
inductive Field where
  | mk (name : Option String) (default : Option Dflt) (kind : FieldKind)
/-- The field kinds the claims exercise: the base Field and TextField
(both convert with unicode coercion), IntegerField, DateTimeField,
DictField (with its optional nested mapping class) and ListField (with
its element field). -/
inductive FieldKind where
  | text
  | intK
  | dateTimeK
  | dictK (mapping : Option MappingCls)
  | listK (field : Field)
/-- A Mapping subclass: its finalized underscore-fields table, a list of
(attribute name, field descriptor) pairs with dict update semantics. -/
inductive MappingCls where
  | mk (fields : List (String × Field))
end

/-- Name of a field descriptor. -/
def Field.name : Field → Option String
  | .mk n _ _ => n

/-- Default of a field descriptor. -/
def Field.default : Field → Option Dflt
  | .mk _ d _ => d

/-- Kind of a field descriptor. -/
def Field.kind : Field → FieldKind
  | .mk _ _ k => k

/-- Key under which a field stores its value in the backing dict: its
name. A record data dict is string-keyed; after metaclass binding every
field name is set, so the None placeholder (modelled as the empty
string) never reaches storage in the scenarios the claims quantify
over. -/
def Field.storageKey (f : Field) : String := f.name.getD ""

/-- The isinstance DictField test used by Proxy.append and
Proxy.insert. -/
def Field.isDictField (f : Field) : Bool :=
  match f.kind with
  | .dictK _ => true
  | _ => false

/-- Fields table of a Mapping subclass. -/
def MappingCls.fields : MappingCls → List (String × Field)
  | .mk fs => fs

/-- Test for None. -/
def Val.isNull : Val → Bool
  | .null => true
  | _ => false

/-- Heap cells: the mutable Python containers of the model. -/
inductive Obj where
  | list (items : List Val)
  | dict (entries : List (String × Val))

/-- An explicit store of mutable containers, addressed by allocation
index. Python object identity of lists and dicts is address identity
here, so sharing and in-place mutation are observable. -/
structure Heap where
  cells : List Obj

/-- Number of cells allocated. -/
def Heap.size (h : Heap) : Nat := h.cells.length

/-- Read a heap cell. -/
def Heap.get? (h : Heap) (a : Nat) : Option Obj := h.cells[a]?

/-- Overwrite a heap cell in place. -/
def Heap.set (h : Heap) (a : Nat) (o : Obj) : Heap := ⟨h.cells.set a o⟩

/-- Allocate a fresh cell, returning its address. -/
def Heap.alloc (h : Heap) (o : Obj) : Nat × Heap :=
  (h.cells.length, ⟨h.cells ++ [o]⟩)

/-- Dict lookup (first matching key). -/
def assocGet {α : Type} (es : List (String × α)) (k : String) : Option α :=
  match es with
  | [] => none
  | (k2, v) :: rest => if k2 = k then some v else assocGet rest k

/-- Dict store: replace in place if the key is present (Python dicts
keep the original position), else append. -/
def assocSet {α : Type} (es : List (String × α)) (k : String) (v : α) : List (String × α) :=
  match es with
  | [] => [(k, v)]
  | (k2, v2) :: rest => if k2 = k then (k2, v) :: rest else (k2, v2) :: assocSet rest k v

/-- Dict pop: drop the first entry with the given key. -/
def assocRemove {α : Type} (es : List (String × α)) (k : String) : List (String × α) :=
  match es with
  | [] => []
  | (k2, v2) :: rest => if k2 = k then rest else (k2, v2) :: assocRemove rest k

/-- Python unicode coercion, as the base Field and TextField conversion:
exact for the scalar values the claims touch; container, record and
proxy reprs are not modelled in detail (no claim depends on them). -/
def pyToStr (v : Val) : String :=
  match v with
  | .null => "None"
  | .boolV b => if b then "True" else "False"
  | .intV n => toString n
  | .strV s => s
  | .dt d => d.strRepr
  | .dateV d => d.isoformat
  | .ref _ => "<container>"
  | .record _ _ => "<record>"
  | .proxy _ _ => "<proxy>"

/-- IntegerField conversion, Python int applied to a value. -/
def intToPython (v : Val) : Except PErr Val :=
  match v with
  | .intV n => .ok (.intV n)
  | .boolV b => .ok (.intV (if b then 1 else 0))
  | .strV s =>
    match parseIntText s with
    | some n => .ok (.intV n)
    | none => .error (.valueError "invalid literal for int")
  | _ => .error (.typeError "int argument must be a string or a number")

/-- DateTimeField text-to-typed conversion: strings are parsed (raising
ValueError on mismatch); every non-string value is returned unchanged. -/
def dateTimeToPython (v : Val) : Except PErr Val :=
  match v with
  | .strV s =>
    match parseDateTimeText s with
    | some d => .ok (.dt d)
    | none => .error (.valueError "Invalid ISO date/time")
  | _ => .ok v

/-- Render a datetime in raw form: microseconds zeroed, isoformat, a
trailing Z appended. -/
def dateTimeRenderZ (d : PyDatetime) : String :=
  d.replaceMicro0.isoformat ++ "Z"

/-- DateTimeField typed-to-raw conversion: a string is first run through
the text parser; a datetime renders directly; a date is combined with
midnight (datetime.combine with time zero); everything else raises as
datetime.combine would (the struct_time branch is not modelled: no
struct_time values exist in the model). -/
def dateTimeToJson (v : Val) : Except PErr Val :=
  match (match v with
         | .strV s => dateTimeToPython (.strV s)
         | _ => .ok v) with
  | .error e => .error e
  | .ok v2 =>
    match v2 with
    | .dt d => .ok (.strV (dateTimeRenderZ d))
    | .dateV d => .ok (.strV (dateTimeRenderZ ⟨d.year, d.month, d.day, 0, 0, 0, 0⟩))
    | _ => .error (.typeError "combine argument must be a date")

/-- Resolve a configured default on read: a callable is invoked (the
copy producers allocate a fresh shallow copy of the captured container),
a plain value is used as-is. -/
def resolveDefault (d : Dflt) (h : Heap) : Val × Heap :=
  match d with
  | .plain v => (v, h)
  | .copyDict es =>
    let (a, h2) := h.alloc (.dict es)
    (.ref a, h2)
  | .copyList items =>
    let (a, h2) := h.alloc (.list items)
    (.ref a, h2)
  | .fnPure f => (f (), h)

/-- Unpacking a value with double-star, as from_kwargs receives it: a
dict reference or a record (records are mappings) yields its entries;
anything else raises. -/
def kwargsEntries (v : Val) (h : Heap) : Except PErr (List (String × Val)) :=
  match v with
  | .ref a =>
    match h.get? a with
    | some (.dict es) => .ok es
    | _ => .error (.typeError "argument after double-star must be a mapping")
  | .record _ dataAddr =>
    match h.get? dataAddr with
    | some (.dict es) => .ok es
    | _ => .error (.typeError "record data missing")
  | _ => .error (.typeError "argument after double-star must be a mapping")

/-- Mapping.unwrap: returns the live backing dict (its reference, not a
copy). -/
def unwrapVal (v : Val) : Except PErr Val :=
  match v with
  | .record _ dataAddr => .ok (.ref dataAddr)
  | _ => .error (.typeError "unwrap expects a record")

/-- Result of an interpreter step producing a value. -/
abbrev RVal := Except PErr Val × Heap

/-- Result of an interpreter step producing no value. -/
abbrev RUnit := Except PErr Unit × Heap

/-- Result of an interpreter step producing a list of values. -/
abbrev RList := Except PErr (List Val) × Heap

/-- Requests of the mutually recursive core of the source (field
descriptor get and set, the two conversion directions, the list
comprehension bodies, from_kwargs, the Mapping constructor and its field
loop). They are interpreted by one function that is structurally
recursive on a fuel parameter, so that closed runs reduce
definitionally; the named wrappers below restore the one-function-per-
Python-method reading. -/
inductive Req where
  | getF (f : Field) (dataAddr : Nat)
  | setF (f : Field) (dataAddr : Nat) (value : Val)
  | toPy (f : Field) (v : Val)
  | toJs (f : Field) (v : Val)
  | jsItems (elem : Field) (items : List Val)
  | jsProxyItems (elem : Field) (pf : Field) (items : List Val)
  | fromKw (m : MappingCls) (v : Val)
  | init (cls : MappingCls) (valuesAddr : Option Nat)
  | initFlds (flds : List (String × Field)) (valuesAddr : Nat) (dataAddr : Nat)

/-- Results of interpreter requests (a value, nothing, or a list of
values). -/
inductive Out where
  | val (v : Val)
  | unit
  | vals (vs : List Val)

/-- Raw result of an interpreter request. -/
abbrev ROut := Except PErr Out × Heap

/-- Read an interpreter result as a value result. -/
def asVal (r : ROut) : RVal :=
  match r with
  | (.ok (.val v), h) => (.ok v, h)
  | (.ok _, h) => (.error (.typeError "internal result shape"), h)
  | (.error e, h) => (.error e, h)

/-- Read an interpreter result as a unit result. -/
def asUnit (r : ROut) : RUnit :=
  match r with
  | (.ok .unit, h) => (.ok (), h)
  | (.ok _, h) => (.error (.typeError "internal result shape"), h)
  | (.error e, h) => (.error e, h)

/-- Read an interpreter result as a list result. -/
def asVals (r : ROut) : RList :=
  match r with
  | (.ok (.vals vs), h) => (.ok vs, h)
  | (.ok _, h) => (.error (.typeError "internal result shape"), h)
  | (.error e, h) => (.error e, h)

/-- The interpreter of the recursive core. Each branch is the direct
transcription of one method of the source; see the named wrappers below
for the per-method documentation. -/
def interp : Nat → Req → Heap → ROut
  | 0, _, h => (.error .fuelExhausted, h)
  | fuel + 1, req, h =>
    match req with
    | .getF f dataAddr =>
      -- Field.get: value = instance.get(name) (None when absent); a
      -- present non-None value is converted with to-python; otherwise a
      -- configured default is resolved (invoked if callable); otherwise
      -- None is returned.
      match h.get? dataAddr with
      | some (.dict data) =>
        let value := (assocGet data f.storageKey).getD .null
        if !value.isNull then
          interp fuel (.toPy f value) h
        else
          match f.default with
          | some d =>
            let (v2, h2) := resolveDefault d h
            (.ok (.val v2), h2)
          | none => (.ok (.val .null), h)
      | _ => (.error (.typeError "record data missing"), h)
    | .setF f dataAddr value =>
      -- Field.set: a non-None value is converted with to-json, then the
      -- (possibly None) result is stored into the backing dict under
      -- the field name.
      match (if !value.isNull then asVal (interp fuel (.toJs f value) h)
             else (.ok value, h)) with
      | (.error e, h2) => (.error e, h2)
      | (.ok v2, h2) =>
        match h2.get? dataAddr with
        | some (.dict data) =>
          (.ok .unit, h2.set dataAddr (.dict (assocSet data f.storageKey v2)))
        | _ => (.error (.typeError "record data missing"), h2)
    | .toPy f v =>
      -- Per-kind to-python: unicode coercion for the base field, int
      -- for IntegerField, the ISO parser for DateTimeField; DictField
      -- with a mapping builds a nested record via from_kwargs, without
      -- a mapping it is the identity; ListField wraps the value in a
      -- Proxy together with its element field.
      match f.kind with
      | .text => (.ok (.val (.strV (pyToStr v))), h)
      | .intK => ((intToPython v).map .val, h)
      | .dateTimeK => ((dateTimeToPython v).map .val, h)
      | .dictK none => (.ok (.val v), h)
      | .dictK (some m) => interp fuel (.fromKw m v) h
      | .listK elem => (.ok (.val (.proxy v elem)), h)
    | .toJs f v =>
      -- Per-kind to-json: the base field delegates to to-python;
      -- DateTimeField renders (parsing text first); DictField without a
      -- mapping is the identity; DictField with a mapping takes the
      -- value itself when it is a record (isinstance Mapping accepts a
      -- record of any class), otherwise builds a record of the
      -- designated class from the value, and unwraps the outcome;
      -- ListField maps the element conversion over the value, building
      -- a fresh raw list (iterating a Proxy yields its element-typed
      -- reads).
      match f.kind with
      | .text => (.ok (.val (.strV (pyToStr v))), h)
      | .intK => ((intToPython v).map .val, h)
      | .dateTimeK => ((dateTimeToJson v).map .val, h)
      | .dictK none => (.ok (.val v), h)
      | .dictK (some m) =>
        match (match v with
               | .record cls dataAddr => (Except.ok (Val.record cls dataAddr), h)
               | _ => asVal (interp fuel (.fromKw m v) h)) with
        | (.ok v2, h2) => ((unwrapVal v2).map .val, h2)
        | (.error e, h2) => (.error e, h2)
      | .listK elem =>
        match v with
        | .ref a =>
          match h.get? a with
          | some (.list items) =>
            match asVals (interp fuel (.jsItems elem items) h) with
            | (.ok out, h2) =>
              let (a2, h3) := h2.alloc (.list out)
              (.ok (.val (.ref a2)), h3)
            | (.error e, h2) => (.error e, h2)
          | _ => (.error (.typeError "object is not iterable"), h)
        | .proxy (.ref a) pf =>
          match h.get? a with
          | some (.list items) =>
            match asVals (interp fuel (.jsProxyItems elem pf items) h) with
            | (.ok out, h2) =>
              let (a2, h3) := h2.alloc (.list out)
              (.ok (.val (.ref a2)), h3)
            | (.error e, h2) => (.error e, h2)
          | _ => (.error (.typeError "object is not iterable"), h)
        | _ => (.error (.typeError "object is not iterable"), h)
    | .jsItems elem items =>
      -- Element-wise to-json over a raw list, left to right.
      match items with
      | [] => (.ok (.vals []), h)
      | x :: rest =>
        match asVal (interp fuel (.toJs elem x) h) with
        | (.error e, h2) => (.error e, h2)
        | (.ok y, h2) =>
          match asVals (interp fuel (.jsItems elem rest) h2) with
          | (.error e, h3) => (.error e, h3)
          | (.ok ys, h3) => (.ok (.vals (y :: ys)), h3)
    | .jsProxyItems elem pf items =>
      -- Element-wise to-json over a Proxy: iterating the proxy yields
      -- the proxy field's to-python of each stored raw item, and each
      -- such typed item is then converted with the element field's
      -- to-json.
      match items with
      | [] => (.ok (.vals []), h)
      | x :: rest =>
        match asVal (interp fuel (.toPy pf x) h) with
        | (.error e, h2) => (.error e, h2)
        | (.ok tx, h2) =>
          match asVal (interp fuel (.toJs elem tx) h2) with
          | (.error e, h3) => (.error e, h3)
          | (.ok y, h3) =>
            match asVals (interp fuel (.jsProxyItems elem pf rest) h3) with
            | (.error e, h4) => (.error e, h4)
            | (.ok ys, h4) => (.ok (.vals (y :: ys)), h4)
    | .fromKw m v =>
      -- Mapping.from_kwargs applied to a double-star unpacked value:
      -- the entries are copied into a fresh kwargs dict (so the
      -- original container is never popped from) and the constructor
      -- runs on that dict.
      match kwargsEntries v h with
      | .error e => (.error e, h)
      | .ok entries =>
        let (a, h2) := h.alloc (.dict entries)
        interp fuel (.init m (some a)) h2
    | .init cls valuesAddr =>
      -- Mapping.init: values = values or dict() (None and an empty dict
      -- are falsy and are replaced by a fresh empty dict; non-dict
      -- containers are a modelled restriction and raise here); then
      -- self.data is a fresh empty dict, and the fields are processed
      -- in declaration order.
      match (match valuesAddr with
             | none =>
               let (a, h2) := h.alloc (.dict [])
               Except.ok (a, h2)
             | some a =>
               match h.get? a with
               | some (.dict es) =>
                 if es.isEmpty then
                   let (a2, h2) := h.alloc (.dict [])
                   Except.ok (a2, h2)
                 else Except.ok (a, h)
               | _ => Except.error (PErr.typeError "values must be a dict")) with
      | .error e => (.error e, h)
      | .ok (vA, h2) =>
        let (dA, h3) := h2.alloc (.dict [])
        match asUnit (interp fuel (.initFlds cls.fields vA dA) h3) with
        | (.ok _, h4) => (.ok (.val (.record cls dA)), h4)
        | (.error e, h4) => (.error e, h4)
    | .initFlds flds valuesAddr dataAddr =>
      -- The constructor loop over the declared fields: a field whose
      -- attribute name is a key of values is popped from values and
      -- written through the typed write path; otherwise the typed read
      -- (default materialization included) runs and its result is
      -- written back through the typed write path.
      match flds with
      | [] => (.ok .unit, h)
      | (fieldName, field) :: rest =>
        match h.get? valuesAddr with
        | some (.dict values) =>
          match assocGet values fieldName with
          | some v =>
            let h2 := h.set valuesAddr (.dict (assocRemove values fieldName))
            match asUnit (interp fuel (.setF field dataAddr v) h2) with
            | (.ok _, h3) => interp fuel (.initFlds rest valuesAddr dataAddr) h3
            | (.error e, h3) => (.error e, h3)
          | none =>
            match asVal (interp fuel (.getF field dataAddr) h) with
            | (.ok v, h2) =>
              match asUnit (interp fuel (.setF field dataAddr v) h2) with
              | (.ok _, h3) => interp fuel (.initFlds rest valuesAddr dataAddr) h3
              | (.error e, h3) => (.error e, h3)
            | (.error e, h2) => (.error e, h2)
        | _ => (.error (.typeError "values dict missing"), h)

/-- Field.get on an instance (the descriptor protocol read path). -/
def fieldGet (fuel : Nat) (f : Field) (dataAddr : Nat) (h : Heap) : RVal :=
  asVal (interp fuel (.getF f dataAddr) h)

/-- Field.set on an instance (the descriptor protocol write path). -/
def fieldSet (fuel : Nat) (f : Field) (dataAddr : Nat) (value : Val) (h : Heap) : RUnit :=
  asUnit (interp fuel (.setF f dataAddr value) h)

/-- The to-python conversion of a field. -/
def toPython (fuel : Nat) (f : Field) (v : Val) (h : Heap) : RVal :=
  asVal (interp fuel (.toPy f v) h)

/-- The to-json conversion of a field. -/
def toJson (fuel : Nat) (f : Field) (v : Val) (h : Heap) : RVal :=
  asVal (interp fuel (.toJs f v) h)

/-- Mapping.from_kwargs applied to a double-star unpacked value. -/
def fromKwargsVal (fuel : Nat) (m : MappingCls) (v : Val) (h : Heap) : RVal :=
  asVal (interp fuel (.fromKw m v) h)

/-- Mapping.init (record construction). -/
def mappingInit (fuel : Nat) (cls : MappingCls) (valuesAddr : Option Nat) (h : Heap) : RVal :=
  asVal (interp fuel (.init cls valuesAddr) h)

/-- The constructor loop over the declared fields. -/
def initFields (fuel : Nat) (flds : List (String × Field)) (valuesAddr dataAddr : Nat) (h : Heap) : RUnit :=
  asUnit (interp fuel (.initFlds flds valuesAddr dataAddr) h)

/-- Mapping.from_kwargs: the keyword arguments become a fresh dict and
the constructor runs on it. -/
def fromKwargs (fuel : Nat) (cls : MappingCls) (kwargs : List (String × Val)) (h : Heap) : RVal :=
  let (a, h2) := h.alloc (.dict kwargs)
  mappingInit fuel cls (some a) h2

/-- Python list index normalization: negative indexes count from the
end; anything out of range is IndexError. -/
def pyNormIndex (idx : Int) (n : Nat) : Option Nat :=
  let j := if idx < 0 then idx + n else idx
  if 0 ≤ j ∧ j < n then some j.toNat else none

/-- Python slice bound normalization: negative bounds count from the
end, and both directions clamp to the list. -/
def pySliceBound (i : Int) (n : Nat) : Nat :=
  if i < 0 then (max (i + n) 0).toNat else min i.toNat n

/-- Python list slicing with normalized bounds. -/
def pySliceList {α : Type} (items : List α) (i j : Int) : List α :=
  let lo := pySliceBound i items.length
  let hi := pySliceBound j items.length
  (items.drop lo).take (hi - lo)

/-- Python list.insert index normalization: negative indexes count from
the end and every index clamps into the list. -/
def pyInsertIndex (idx : Int) (n : Nat) : Nat :=
  if idx < 0 then (max (idx + n) 0).toNat else min idx.toNat n

/-- Insert at a (already normalized) position. -/
def listInsertAt {α : Type} (items : List α) (i : Nat) (v : α) : List α :=
  items.take i ++ v :: items.drop i

/-- ListField.Proxy.getitem: the element field's to-python conversion of
the raw item at the index. -/
def proxyGetItem (fuel : Nat) (target : Val) (pf : Field) (idx : Int) (h : Heap) : RVal :=
  match target with
  | .ref a =>
    match h.get? a with
    | some (.list items) =>
      match pyNormIndex idx items.length with
      | some i => toPython fuel pf (items.getD i .null) h
      | none => (.error (.indexError "list index out of range"), h)
    | _ => (.error (.typeError "wrapped object is not a list"), h)
  | _ => (.error (.typeError "wrapped object is not a list"), h)

/-- ListField.Proxy.getslice: a new Proxy of the same kind is returned,
wrapping the sliced raw list (a fresh list, as Python slicing copies)
and the same element field descriptor. -/
def proxyGetSlice (target : Val) (pf : Field) (i j : Int) (h : Heap) : RVal :=
  match target with
  | .ref a =>
    match h.get? a with
    | some (.list items) =>
      let (a2, h2) := h.alloc (.list (pySliceList items i j))
      (.ok (.proxy (.ref a2) pf), h2)
    | _ => (.error (.typeError "wrapped object is not a list"), h)
  | _ => (.error (.typeError "wrapped object is not a list"), h)

/-- ListField.Proxy.append: when positional arguments are present or the
element field is not a DictField, exactly one positional argument is
required (TypeError otherwise, raised before anything is evaluated or
stored, keyword arguments being ignored in that branch); otherwise the
keyword arguments form the value. The value is converted with the
element field's to-json and the raw result is appended in place to the
wrapped list. -/
def proxyAppend (fuel : Nat) (target : Val) (pf : Field) (args : List Val)
    (kwargs : List (String × Val)) (h : Heap) : RUnit :=
  match (if !args.isEmpty || !pf.isDictField then
           match args with
           | [v] => Except.ok (v, h)
           | _ => Except.error (PErr.typeError "append takes exactly one argument")
         else
           let (a, h2) := h.alloc (.dict kwargs)
           Except.ok (Val.ref a, h2)) with
  | .error e => (.error e, h)
  | .ok (value, h2) =>
    match toJson fuel pf value h2 with
    | (.error e, h3) => (.error e, h3)
    | (.ok jv, h3) =>
      match target with
      | .ref a =>
        match h3.get? a with
        | some (.list items) => (.ok (), h3.set a (.list (items ++ [jv])))
        | _ => (.error (.typeError "wrapped object is not a list"), h3)
      | _ => (.error (.typeError "wrapped object is not a list"), h3)

/-- ListField.Proxy.insert: same argument handling as append, then the
raw conversion result is inserted in place at the (clamped) index. -/
def proxyInsert (fuel : Nat) (target : Val) (pf : Field) (idx : Int) (args : List Val)
    (kwargs : List (String × Val)) (h : Heap) : RUnit :=
  match (if !args.isEmpty || !pf.isDictField then
           match args with
           | [v] => Except.ok (v, h)
           | _ => Except.error (PErr.typeError "insert takes exactly 2 arguments")
         else
           let (a, h2) := h.alloc (.dict kwargs)
           Except.ok (Val.ref a, h2)) with
  | .error e => (.error e, h)
  | .ok (value, h2) =>
    match toJson fuel pf value h2 with
    | (.error e, h3) => (.error e, h3)
    | (.ok jv, h3) =>
      match target with
      | .ref a =>
        match h3.get? a with
        | some (.list items) =>
          (.ok (), h3.set a (.list (listInsertAt items (pyInsertIndex idx items.length) jv)))
        | _ => (.error (.typeError "wrapped object is not a list"), h3)
      | _ => (.error (.typeError "wrapped object is not a list"), h3)

/-- MappingMeta name binding: a field whose name is falsy (None or the
empty string) is bound to the attribute name under which it was
declared. -/
def bindFieldName (attrName : String) (f : Field) : Field :=
  if f.name.getD "" = "" then Field.mk (some attrName) f.default f.kind else f

/-- MappingMeta.new: fields starts empty; each base class's fields table
is folded in with dict update semantics, in declaration order of the
bases; then every Field-valued attribute of the class body is
name-bound and stored, winning every collision. -/
def mkMappingCls (bases : List MappingCls) (dct : List (String × Field)) : MappingCls :=
  let fields := bases.foldl (fun acc b =>
    b.fields.foldl (fun acc2 kv => assocSet acc2 kv.1 kv.2) acc) []
  let fields2 := dct.foldl (fun acc kv => assocSet acc kv.1 (bindFieldName kv.1 kv.2)) fields
  .mk fields2

/-- DictField.init: default = default or an empty dict (None and an
empty dict are falsy), and the field default becomes the producer
copying that dict on every call; the nested mapping class is stored. -/
def mkDictField (mapping : Option MappingCls) (name : Option String)
    (default : Option (List (String × Val))) : Field :=
  let d := match default with
           | some es => es
           | none => []
  Field.mk name (some (.copyDict d)) (.dictK mapping)

/-- ListField.init: default = default or an empty list, and the field
default becomes the producer copying that list on every call; a Mapping
subclass passed as the element is adapted into DictField of it. -/
def mkListField (field : Sum Field MappingCls) (name : Option String)
    (default : Option (List Val)) : Field :=
  let d := match default with
           | some items => items
           | none => []
  let elem := match field with
              | .inl f => f
              | .inr m => mkDictField (some m) none none
  Field.mk name (some (.copyList d)) (.listK elem)

/-- Resolve a value to a pure JSON tree by dereferencing the heap:
content observation, the shape Python equality and the JSON encoder see.
Datetimes, records and proxies are not raw JSON values and do not
resolve. -/
def resolveVal : Nat → Heap → Val → Option PureVal
  | 0, _, _ => none
  | fuel + 1, h, v =>
    match v with
    | .null => some .null
    | .boolV b => some (.boolV b)
    | .intV n => some (.intV n)
    | .strV s => some (.strV s)
    | .ref a =>
      match h.get? a with
      | some (.list items) => (items.mapM (resolveVal fuel h)).map .listV
      | some (.dict es) =>
        (es.mapM (fun kv => (resolveVal fuel h kv.2).map fun p => (kv.1, p))).map .dictV
      | none => none
    | _ => none

/-- One unwrap step applied to an interpreter result: the tail of the
DictField typed-to-raw path (construct, then unwrap). -/
def unwrapStep (r : RVal) : RVal :=
  match r with
  | (.ok v, h2) => (unwrapVal v, h2)
  | (.error e, h2) => (.error e, h2)

/-- Lookup across ancestor schemas with the override order the
metaclass fold produces: a later-listed base wins a name collision. -/
def basesLookup (bases : List MappingCls) (k : String) : Option Field :=
  match bases with
  | [] => none
  | b :: rest =>
    match basesLookup rest k with
    | some f => some f
    | none => assocGet b.fields k

/-- Heap evolution contract: the heap only grows, and every
pre-existing cell outside the write set is unchanged. -/
def Heap.preserves (h h' : Heap) (ws : List Nat) : Prop :=
  h.size ≤ h'.size ∧ ∀ a, a < h.size → a ∉ ws → h'.get? a = h.get? a

/-- Resolution like resolveVal, but refusing to dereference any address
in the given set: a successful guarded resolution certifies that the
value's content does not depend on those cells. -/
def resolveAvoid : Nat → Heap → List Nat → Val → Option PureVal
  | 0, _, _, _ => none
  | fuel + 1, h, bad, v =>
    match v with
    | .null => some .null
    | .boolV b => some (.boolV b)
    | .intV n => some (.intV n)
    | .strV s => some (.strV s)
    | .ref a =>
      if a ∈ bad then none
      else
        match h.get? a with
        | some (.list items) => (items.mapM (resolveAvoid fuel h bad)).map .listV
        | some (.dict es) =>
          (es.mapM (fun kv => (resolveAvoid fuel h bad kv.2).map fun p => (kv.1, p))).map .dictV
        | none => none
    | _ => none

/-- Schema of the sequence-view scenario of claim C4: one
sequence-of-date-time field named dates. -/
def c4Cls : MappingCls :=
  mkMappingCls [] [("dates", mkListField (.inl (Field.mk none none .dateTimeK)) none none)]

/-- End-to-end sequence-view scenario: construct a record from a raw
mapping holding an empty sequence for the dates field, read the field
(obtaining the Proxy view), append the datetime 2007-04-01 15:30:00
through the view, and return the resolved unwrap content together with
whether the view wrapped the very list object stored in the record
(address equality of the proxy target and the stored reference). -/
def c4Run : Option (PureVal × Bool) :=
  let h0 : Heap := ⟨[.list []]⟩
  let (a, h1) := h0.alloc (.dict [("dates", .ref 0)])
  match mappingInit 20 c4Cls (some a) h1 with
  | (.ok (.record _ dA), h2) =>
    match assocGet c4Cls.fields "dates" with
    | some f =>
      match fieldGet 20 f dA h2 with
      | (.ok (.proxy (.ref ta) pf), h3) =>
        let shared :=
          match h3.get? dA with
          | some (.dict es) =>
            match assocGet es "dates" with
            | some (.ref sa) => ta == sa
            | _ => false
          | _ => false
        match proxyAppend 20 (.ref ta) pf [.dt ⟨2007, 4, 1, 15, 30, 0, 0⟩] [] h3 with
        | (.ok _, h4) => (resolveVal 10 h4 (.ref dA)).map fun p => (p, shared)
        | _ => none
      | _ => none
    | none => none
  | _ => none

/-- Nested schema for the arity scenario of claim C5 (a comment record
with a single text field). -/
def c5Cls : MappingCls := mkMappingCls [] [("author", Field.mk none none .text)]

/-- Sequence element descriptor of the C5 scenario: a nested-record
field. -/
def c5Elem : Field := mkDictField (some c5Cls) none none

/-- Starting heap of the C5 scenario: one empty raw list at address 0. -/
def c5Heap : Heap := ⟨[.list []]⟩

/-- Append with zero positional values and no keywords on a view whose
element descriptor is a nested-record field. -/
def c5RunZero : RUnit := proxyAppend 20 (.ref 0) c5Elem [] [] c5Heap

/-- Append with one positional value together with a keyword value, on
a view of text elements. -/
def c5RunPosKw : RUnit :=
  proxyAppend 20 (.ref 0) (Field.mk (some "t") none .text) [.strV "a"] [("k", .intV 1)] c5Heap

/-- Designated nested schema of the claim C8 scenario (one text field
named x). -/
def c8SchemaA : MappingCls := mkMappingCls [] [("x", Field.mk none none .text)]

/-- A different, empty schema. -/
def c8SchemaB : MappingCls := mkMappingCls [] []

/-- A nested-record field designating schema A. -/
def c8Field : Field := mkDictField (some c8SchemaA) (some "f") none

/-- Heap with the (empty) backing dict of a foreign record at address
0. -/
def c8Heap : Heap := ⟨[.dict []]⟩

/-- A record of schema B, not of the designated schema A. -/
def c8Val : Val := .record c8SchemaB 0

/-- What the code does on the foreign record. -/
def c8Code : RVal := toJson 20 c8Field c8Val c8Heap

/-- What the claim's otherwise-branch prescribes for every value that is
not a record of the designated schema: construct a record of the
designated schema from it (keyword-style) and unwrap that. -/
def c8SpecPath : RVal := unwrapStep (fromKwargsVal 20 c8SchemaA c8Val c8Heap)

/-- Cells a request is allowed to write among the pre-existing ones
(fresh allocations are always allowed): the descriptor write path
touches the record's backing dict, the constructor pops from the given
values dict and writes its backing dict, conversions only allocate. -/
def reqWrites : Req → List Nat
  | .getF _ _ => []
  | .setF _ dataAddr _ => [dataAddr]
  | .toPy _ _ => []
  | .toJs _ _ => []
  | .jsItems _ _ => []
  | .jsProxyItems _ _ _ => []
  | .fromKw _ _ => []
  | .init _ valuesAddr => valuesAddr.toList
  | .initFlds _ valuesAddr dataAddr => [valuesAddr, dataAddr]

/-- Formalization of an already-raw, well-formed value for a field, as
the round-trip claim needs it: the value resolves to the content p
without dereferencing the given addresses, and whenever the field's
typed-write conversion runs on it (in any heap that differs from the
original only at those addresses and by growth), the conversion succeeds
and its raw output resolves to the same content p, again avoiding those
addresses. Leaf raw values (text for text fields, canonical date-time
strings for date-time fields, ints for integer fields) satisfy this, as
do raw containers not reaching the construction's working cells. -/
def RawFixed (h0 : Heap) (bad : List Nat) (f : Field) (v : Val) (p : PureVal) : Prop :=
  (∃ n, resolveAvoid n h0 bad v = some p) ∧
  ∀ fuel h1 w h2, Heap.preserves h0 h1 bad → toJson fuel f v h1 = (.ok w, h2) →
    ∃ n, resolveAvoid n h2 bad w = some p

/-- Schema of the record-construction and round-trip witness scenarios:
a text field named name and an integer field named age. -/
def c1Cls : MappingCls :=
  mkMappingCls [] [("name", Field.mk none none .text), ("age", Field.mk none none .intK)]

/-- Input heap of the record-construction witness scenario: the values
dict at address 0 carries only the name key. -/
def c1Heap : Heap := ⟨[.dict [("name", .strV "John")]]⟩

/-! Helper lemmas about the result coercions, association lists and the
heap. -/

theorem asVal_snd (r : ROut) : (asVal r).2 = r.2 := by
  rcases r with ⟨e, h⟩
  cases e with
  | ok o => cases o <;> rfl
  | error e => rfl

theorem asUnit_snd (r : ROut) : (asUnit r).2 = r.2 := by
  rcases r with ⟨e, h⟩
  cases e with
  | ok o => cases o <;> rfl
  | error e => rfl

theorem asVals_snd (r : ROut) : (asVals r).2 = r.2 := by
  rcases r with ⟨e, h⟩
  cases e with
  | ok o => cases o <;> rfl
  | error e => rfl

theorem assocGet_assocSet {α : Type} (es : List (String × α)) (k k2 : String) (v : α) :
    assocGet (assocSet es k v) k2 = if k = k2 then some v else assocGet es k2 := by
  induction es with
  | nil => by_cases hk : k = k2 <;> simp [assocGet, assocSet, hk]
  | cons kv rest ih =>
    rcases kv with ⟨k1, v1⟩
    by_cases h1 : k1 = k
    · subst h1
      by_cases h2 : k1 = k2 <;> simp [assocGet, assocSet, h2]
    · by_cases h2 : k1 = k2
      · subst h2
        have : ¬ k = k1 := fun hh => h1 hh.symm
        simp [assocGet, assocSet, h1, this]
      · simp [assocGet, assocSet, h1, h2, ih]

theorem assocGet_assocRemove_ne {α : Type} (es : List (String × α)) (k k2 : String)
    (hne : k ≠ k2) : assocGet (assocRemove es k) k2 = assocGet es k2 := by
  induction es with
  | nil => rfl
  | cons kv rest ih =>
    rcases kv with ⟨k1, v1⟩
    by_cases h1 : k1 = k
    · subst h1
      have h2 : ¬ k1 = k2 := hne
      simp [assocRemove, assocGet, h2]
    · by_cases h2 : k1 = k2
      · subst h2
        simp [assocRemove, assocGet, h1]
      · simp [assocRemove, assocGet, h1, h2, ih]

theorem assocGet_eq_none_iff {α : Type} (es : List (String × α)) (k : String) :
    assocGet es k = none ↔ k ∉ es.map Prod.fst := by
  induction es with
  | nil => simp [assocGet]
  | cons kv rest ih =>
    rcases kv with ⟨k1, v1⟩
    simp only [assocGet, List.map_cons, List.mem_cons]
    by_cases h1 : k1 = k
    · subst h1
      simp
    · simp only [if_neg h1, ih]
      constructor
      · intro hnk hor
        rcases hor with he | hm
        · exact h1 he.symm
        · exact hnk hm
      · intro hno hm
        exact hno (Or.inr hm)

theorem assocGet_assocRemove_self {α : Type} (es : List (String × α)) (k : String)
    (hnd : (es.map Prod.fst).Nodup) : assocGet (assocRemove es k) k = none := by
  induction es with
  | nil => simp [assocGet, assocRemove]
  | cons kv rest ih =>
    rcases kv with ⟨k1, v1⟩
    rcases List.nodup_cons.mp hnd with ⟨hk1, hrest⟩
    by_cases h1 : k1 = k
    · subst h1
      simp only [assocRemove, if_pos rfl]
      exact (assocGet_eq_none_iff rest k1).mpr hk1
    · simp [assocRemove, h1, assocGet, ih hrest]

theorem keys_assocRemove_sub {α : Type} (es : List (String × α)) (k k2 : String) :
    k2 ∈ (assocRemove es k).map Prod.fst → k2 ∈ es.map Prod.fst := by
  induction es with
  | nil => simp [assocRemove]
  | cons kv rest ih =>
    rcases kv with ⟨k1, v1⟩
    by_cases h1 : k1 = k
    · subst h1
      simp only [assocRemove, if_pos rfl, List.map_cons]
      intro hm
      exact List.mem_cons_of_mem _ hm
    · simp only [assocRemove, if_neg h1, List.map_cons, List.mem_cons]
      rintro (hh | hm)
      · exact Or.inl hh
      · exact Or.inr (ih hm)

theorem keys_nodup_assocRemove {α : Type} (es : List (String × α)) (k : String)
    (hnd : (es.map Prod.fst).Nodup) : ((assocRemove es k).map Prod.fst).Nodup := by
  induction es with
  | nil => simpa [assocRemove] using hnd
  | cons kv rest ih =>
    rcases kv with ⟨k1, v1⟩
    rcases List.nodup_cons.mp hnd with ⟨hk1, hrest⟩
    by_cases h1 : k1 = k
    · subst h1
      simp only [assocRemove, if_pos rfl]
      exact hrest
    · simp only [assocRemove, if_neg h1, List.map_cons]
      exact List.nodup_cons.mpr
        ⟨fun hm => hk1 (keys_assocRemove_sub rest k k1 hm), ih hrest⟩

theorem Heap.get?_some_lt {h : Heap} {a : Nat} {o : Obj} (hg : h.get? a = some o) :
    a < h.size := by
  by_contra hlt
  rw [Heap.get?, List.getElem?_eq_none (Nat.le_of_not_lt hlt)] at hg
  exact Option.noConfusion hg

theorem Heap.size_set (h : Heap) (a : Nat) (o : Obj) : (h.set a o).size = h.size := by
  simp [Heap.set, Heap.size]

theorem Heap.get?_set_self {h : Heap} {a : Nat} (o : Obj) (ha : a < h.size) :
    (h.set a o).get? a = some o := by
  rw [Heap.set, Heap.get?]
  exact List.getElem?_set_eq_of_lt o ha

theorem Heap.get?_set_ne (h : Heap) {a b : Nat} (o : Obj) (hab : a ≠ b) :
    (h.set a o).get? b = h.get? b := by
  rw [Heap.set, Heap.get?, Heap.get?]
  exact List.getElem?_set_ne hab

theorem Heap.size_alloc (h : Heap) (o : Obj) : (h.alloc o).2.size = h.size + 1 := by
  simp [Heap.alloc, Heap.size]

theorem Heap.alloc_fst (h : Heap) (o : Obj) : (h.alloc o).1 = h.size := rfl

theorem Heap.get?_alloc_lt (h : Heap) (o : Obj) {b : Nat} (hb : b < h.size) :
    (h.alloc o).2.get? b = h.get? b := by
  rw [Heap.alloc, Heap.get?, Heap.get?]
  exact List.getElem?_append_left hb

theorem Heap.get?_alloc_self (h : Heap) (o : Obj) :
    (h.alloc o).2.get? h.size = some o := by
  rw [Heap.alloc, Heap.get?, Heap.size]
  exact List.getElem?_concat_length h.cells o

theorem Heap.preserves_refl (h : Heap) (ws : List Nat) : Heap.preserves h h ws :=
  ⟨Nat.le_refl _, fun _ _ _ => rfl⟩

theorem Heap.preserves_alloc (h : Heap) (o : Obj) (ws : List Nat) :
    Heap.preserves h (h.alloc o).2 ws := by
  refine ⟨by simp [Heap.size_alloc], fun a ha _ => Heap.get?_alloc_lt h o ha⟩

theorem Heap.preserves_set_mem (h : Heap) (a : Nat) (o : Obj) (ws : List Nat)
    (ha : a ∈ ws) : Heap.preserves h (h.set a o) ws := by
  refine ⟨by simp [Heap.size_set], fun b hb hbw => ?_⟩
  exact Heap.get?_set_ne h o (fun hab => hbw (hab ▸ ha))

theorem Heap.preserves_trans {h h1 h2 : Heap} {ws1 ws2 ws : List Nat}
    (p1 : Heap.preserves h h1 ws1) (p2 : Heap.preserves h1 h2 ws2)
    (s1 : ∀ a ∈ ws1, a ∈ ws) (s2 : ∀ a ∈ ws2, a ∈ ws ∨ h.size ≤ a) :
    Heap.preserves h h2 ws := by
  refine ⟨Nat.le_trans p1.1 p2.1, fun a ha haw => ?_⟩
  have h1a : h1.get? a = h.get? a := p1.2 a ha (fun hm => haw (s1 a hm))
  have h2a : h2.get? a = h1.get? a := by
    refine p2.2 a (Nat.lt_of_lt_of_le ha p1.1) (fun hm => ?_)
    rcases s2 a hm with hin | hge
    · exact haw hin
    · exact Nat.not_lt.mpr hge ha
  rw [h2a, h1a]

theorem Heap.preserves_mono {h h' : Heap} {ws ws' : List Nat}
    (hsub : ∀ a ∈ ws, a ∈ ws') (p : Heap.preserves h h' ws) :
    Heap.preserves h h' ws' :=
  ⟨p.1, fun a ha haw => p.2 a ha (fun hm => haw (hsub a hm))⟩

theorem Heap.preserves_trans_same {h h1 h2 : Heap} {ws : List Nat}
    (p1 : Heap.preserves h h1 ws) (p2 : Heap.preserves h1 h2 ws) :
    Heap.preserves h h2 ws :=
  ⟨Nat.le_trans p1.1 p2.1, fun a ha haw => by
    rw [p2.2 a (Nat.lt_of_lt_of_le ha p1.1) haw, p1.2 a ha haw]⟩

theorem resolveDefault_preserves (d : Dflt) (h : Heap) (ws : List Nat) :
    Heap.preserves h (resolveDefault d h).2 ws := by
  cases d with
  | plain v => exact Heap.preserves_refl h ws
  | copyDict es => exact Heap.preserves_alloc h _ ws
  | copyList items => exact Heap.preserves_alloc h _ ws
  | fnPure f => exact Heap.preserves_refl h ws

theorem interp_preserves_getF (n : Nat)
    (ih : ∀ req h, Heap.preserves h (interp n req h).2 (reqWrites req))
    (f : Field) (dataAddr : Nat) (h : Heap) :
    Heap.preserves h (interp (n + 1) (.getF f dataAddr) h).2 [] := by
  simp only [interp]
  rcases hgd : h.get? dataAddr with _ | o
  · exact Heap.preserves_refl h _
  · rcases o with items | data
    · exact Heap.preserves_refl h _
    · simp only []
      cases hnull : ((assocGet data f.storageKey).getD .null).isNull
      · simp only [Bool.not_false, if_pos rfl]
        have := ih (.toPy f ((assocGet data f.storageKey).getD .null)) h
        simpa [reqWrites] using this
      · simp only [Bool.not_true, Bool.false_eq_true, if_false]
        rcases f.default with _ | d
        · exact Heap.preserves_refl h _
        · exact resolveDefault_preserves d h []

theorem interp_preserves_setF (n : Nat)
    (ih : ∀ req h, Heap.preserves h (interp n req h).2 (reqWrites req))
    (f : Field) (dataAddr : Nat) (value : Val) (h : Heap) :
    Heap.preserves h (interp (n + 1) (.setF f dataAddr value) h).2 [dataAddr] := by
  simp only [interp]
  have hconv : Heap.preserves h
      (if !value.isNull then asVal (interp n (.toJs f value) h) else (.ok value, h)).2
      [dataAddr] := by
    by_cases hb : (!value.isNull) = true
    · rw [if_pos hb, asVal_snd]
      exact Heap.preserves_mono (fun a ha => by cases ha) (ih (.toJs f value) h)
    · rw [if_neg hb]
      exact Heap.preserves_refl h _
  rcases hc : (if !value.isNull then asVal (interp n (.toJs f value) h) else (.ok value, h))
    with ⟨er, h2⟩
  rw [hc] at hconv
  rcases er with e | v2
  · exact hconv
  · simp only []
    rcases hgd : h2.get? dataAddr with _ | o
    · exact hconv
    · rcases o with items | data
      · exact hconv
      · simp only []
        exact Heap.preserves_trans_same hconv
          (Heap.preserves_set_mem h2 dataAddr _ _ (List.mem_singleton.mpr rfl))

theorem interp_preserves_toPy (n : Nat)
    (ih : ∀ req h, Heap.preserves h (interp n req h).2 (reqWrites req))
    (f : Field) (v : Val) (h : Heap) :
    Heap.preserves h (interp (n + 1) (.toPy f v) h).2 [] := by
  simp only [interp]
  rcases hk : f.kind with _ | _ | _ | m | elem
  · exact Heap.preserves_refl h _
  · exact Heap.preserves_refl h _
  · exact Heap.preserves_refl h _
  · rcases m with _ | mm
    · exact Heap.preserves_refl h _
    · exact ih (.fromKw mm v) h
  · exact Heap.preserves_refl h _

theorem interp_preserves_toJs (n : Nat)
    (ih : ∀ req h, Heap.preserves h (interp n req h).2 (reqWrites req))
    (f : Field) (v : Val) (h : Heap) :
    Heap.preserves h (interp (n + 1) (.toJs f v) h).2 [] := by
  simp only [interp]
  rcases hk : f.kind with _ | _ | _ | m | elem
  · exact Heap.preserves_refl h _
  · exact Heap.preserves_refl h _
  · exact Heap.preserves_refl h _
  · rcases m with _ | mm
    · exact Heap.preserves_refl h _
    · dsimp only
      rcases hres : interp n (.fromKw mm v) h with ⟨er, h2⟩
      have pj : Heap.preserves h h2 [] := by
        have := ih (.fromKw mm v) h
        rw [hres] at this
        exact this
      rcases v with _ | b | nn | s | a | d | dd | ⟨cls, dA⟩ | ⟨tgt, pf⟩
      case record => exact Heap.preserves_refl h _
      all_goals
        cases er with
        | error e => exact pj
        | ok o => cases o <;> exact pj
  · rcases v with _ | b | nn | s | a | d | dd | ⟨cls, dA⟩ | ⟨tgt, pf⟩
    case ref =>
      dsimp only
      rcases hga : h.get? a with _ | o
      · exact Heap.preserves_refl h _
      · rcases o with items | es
        · dsimp only
          rcases hjs : interp n (.jsItems elem items) h with ⟨er, h2⟩
          have pj : Heap.preserves h h2 [] := by
            have := ih (.jsItems elem items) h
            rw [hjs] at this
            exact this
          rcases er with e | o2
          · exact pj
          · rcases o2 with v2 | _ | vs
            · exact pj
            · exact pj
            · exact Heap.preserves_trans_same pj (Heap.preserves_alloc h2 _ _)
        · exact Heap.preserves_refl h _
    case proxy =>
      rcases tgt with _ | b | nn | s | a | d | dd | ⟨cls, dA⟩ | ⟨tgt2, pf2⟩
      case ref =>
        dsimp only
        rcases hga : h.get? a with _ | o
        · exact Heap.preserves_refl h _
        · rcases o with items | es
          · dsimp only
            rcases hjs : interp n (.jsProxyItems elem pf items) h with ⟨er, h2⟩
            have pj : Heap.preserves h h2 [] := by
              have := ih (.jsProxyItems elem pf items) h
              rw [hjs] at this
              exact this
            rcases er with e | o2
            · exact pj
            · rcases o2 with v2 | _ | vs
              · exact pj
              · exact pj
              · exact Heap.preserves_trans_same pj (Heap.preserves_alloc h2 _ _)
          · exact Heap.preserves_refl h _
      all_goals exact Heap.preserves_refl h _
    all_goals exact Heap.preserves_refl h _

theorem interp_preserves_jsItems (n : Nat)
    (ih : ∀ req h, Heap.preserves h (interp n req h).2 (reqWrites req))
    (elem : Field) (items : List Val) (h : Heap) :
    Heap.preserves h (interp (n + 1) (.jsItems elem items) h).2 [] := by
  rcases items with _ | ⟨x, rest⟩
  · exact Heap.preserves_refl h _
  · simp only [interp]
    rcases h1 : interp n (.toJs elem x) h with ⟨er, h2⟩
    have p1 : Heap.preserves h h2 [] := by
      have := ih (.toJs elem x) h
      rw [h1] at this
      exact this
    cases er with
    | error e => exact p1
    | ok o =>
      cases o with
      | val y =>
        simp only [asVal]
        rcases h2r : interp n (.jsItems elem rest) h2 with ⟨er2, h3⟩
        have p2 : Heap.preserves h2 h3 [] := by
          have := ih (.jsItems elem rest) h2
          rw [h2r] at this
          exact this
        have p12 := Heap.preserves_trans_same p1 p2
        cases er2 with
        | error e => exact p12
        | ok o2 => cases o2 <;> exact p12
      | unit => exact p1
      | vals vs => exact p1

theorem interp_preserves_jsProxyItems (n : Nat)
    (ih : ∀ req h, Heap.preserves h (interp n req h).2 (reqWrites req))
    (elem pf : Field) (items : List Val) (h : Heap) :
    Heap.preserves h (interp (n + 1) (.jsProxyItems elem pf items) h).2 [] := by
  rcases items with _ | ⟨x, rest⟩
  · exact Heap.preserves_refl h _
  · simp only [interp]
    rcases h1 : interp n (.toPy pf x) h with ⟨er, h2⟩
    have p1 : Heap.preserves h h2 [] := by
      have := ih (.toPy pf x) h
      rw [h1] at this
      exact this
    cases er with
    | error e => exact p1
    | ok o =>
      cases o with
      | val tx =>
        simp only [asVal]
        rcases h2r : interp n (.toJs elem tx) h2 with ⟨er2, h3⟩
        have p2 : Heap.preserves h2 h3 [] := by
          have := ih (.toJs elem tx) h2
          rw [h2r] at this
          exact this
        have p12 := Heap.preserves_trans_same p1 p2
        cases er2 with
        | error e => exact p12
        | ok o2 =>
          cases o2 with
          | val y =>
            simp only [asVal]
            rcases h3r : interp n (.jsProxyItems elem pf rest) h3 with ⟨er3, h4⟩
            have p3 : Heap.preserves h3 h4 [] := by
              have := ih (.jsProxyItems elem pf rest) h3
              rw [h3r] at this
              exact this
            have p123 := Heap.preserves_trans_same p12 p3
            cases er3 with
            | error e => exact p123
            | ok o3 => cases o3 <;> exact p123
          | unit => exact p12
          | vals vs => exact p12
      | unit => exact p1
      | vals vs => exact p1

theorem interp_preserves_fromKw (n : Nat)
    (ih : ∀ req h, Heap.preserves h (interp n req h).2 (reqWrites req))
    (m : MappingCls) (v : Val) (h : Heap) :
    Heap.preserves h (interp (n + 1) (.fromKw m v) h).2 [] := by
  simp only [interp]
  rcases hke : kwargsEntries v h with e | entries
  · exact Heap.preserves_refl h _
  · dsimp only
    have p1 : Heap.preserves h (h.alloc (.dict entries)).2 [] := Heap.preserves_alloc h _ []
    have p2 := ih (.init m (some (h.alloc (.dict entries)).1)) (h.alloc (.dict entries)).2
    refine Heap.preserves_trans p1 p2 (fun a ha => ha) (fun a ha => ?_)
    simp only [reqWrites, Option.toList_some] at ha
    rcases List.mem_singleton.mp ha with rfl
    exact Or.inr (Nat.le_of_eq (Heap.alloc_fst h _).symm)

theorem interp_preserves_init (n : Nat)
    (ih : ∀ req h, Heap.preserves h (interp n req h).2 (reqWrites req))
    (cls : MappingCls) (valuesAddr : Option Nat) (h : Heap) :
    Heap.preserves h (interp (n + 1) (.init cls valuesAddr) h).2 valuesAddr.toList := by
  simp only [interp]
  have main : ∀ vA h2, Heap.preserves h h2 valuesAddr.toList →
      (vA ∈ valuesAddr.toList ∨ h.size ≤ vA) → h.size ≤ h2.size →
      Heap.preserves h
        ((match asUnit (interp n (.initFlds cls.fields vA (h2.alloc (.dict [])).1)
            (h2.alloc (.dict [])).2) with
          | (.ok _, h4) => ((Except.ok (Out.val (.record cls (h2.alloc (.dict [])).1)) : Except PErr Out), h4)
          | (.error e, h4) => (.error e, h4)) : ROut).2 valuesAddr.toList := by
    intro vA h2 p1 hva hsz
    have p2 : Heap.preserves h2 (h2.alloc (.dict [])).2 valuesAddr.toList :=
      Heap.preserves_alloc h2 _ _
    have p12 := Heap.preserves_trans_same p1 p2
    rcases hrun : interp n (.initFlds cls.fields vA (h2.alloc (.dict [])).1)
        (h2.alloc (.dict [])).2 with ⟨er, h4⟩
    have p3 : Heap.preserves (h2.alloc (.dict [])).2 h4 [vA, (h2.alloc (.dict [])).1] := by
      have := ih (.initFlds cls.fields vA (h2.alloc (.dict [])).1) (h2.alloc (.dict [])).2
      rw [hrun] at this
      exact this
    have p123 : Heap.preserves h h4 valuesAddr.toList := by
      refine Heap.preserves_trans p12 p3 (fun a ha => ha) (fun a ha => ?_)
      rcases List.mem_cons.mp ha with rfl | ha2
      · exact hva
      · rcases List.mem_singleton.mp ha2 with rfl
        rw [Heap.alloc_fst]
        exact Or.inr hsz
    cases er with
    | error e => exact p123
    | ok o => cases o <;> exact p123
  rcases valuesAddr with _ | a
  · dsimp only
    refine main h.size (h.alloc (.dict [])).2 (Heap.preserves_alloc h _ _)
      (Or.inr (Nat.le_refl _)) ?_
    rw [Heap.size_alloc]
    exact Nat.le_succ _
  · dsimp only
    rcases hga : h.get? a with _ | o
    · exact Heap.preserves_refl h _
    · rcases o with items | es
      · exact Heap.preserves_refl h _
      · dsimp only
        by_cases he : es.isEmpty
        · rw [if_pos he]
          refine main h.size (h.alloc (.dict [])).2 (Heap.preserves_alloc h _ _)
            (Or.inr (Nat.le_refl _)) ?_
          rw [Heap.size_alloc]
          exact Nat.le_succ _
        · rw [if_neg he]
          exact main a h (Heap.preserves_refl h _)
            (Or.inl (List.mem_singleton.mpr rfl)) (Nat.le_refl _)

theorem interp_preserves_initFlds (n : Nat)
    (ih : ∀ req h, Heap.preserves h (interp n req h).2 (reqWrites req))
    (flds : List (String × Field)) (valuesAddr dataAddr : Nat) (h : Heap) :
    Heap.preserves h (interp (n + 1) (.initFlds flds valuesAddr dataAddr) h).2
      [valuesAddr, dataAddr] := by
  simp only [interp]
  rcases flds with _ | ⟨⟨fieldName, field⟩, rest⟩
  · exact Heap.preserves_refl h _
  · dsimp only
    rcases hgv : h.get? valuesAddr with _ | o
    · exact Heap.preserves_refl h _
    · rcases o with items | values
      · exact Heap.preserves_refl h _
      · dsimp only
        have hdmem : dataAddr ∈ [valuesAddr, dataAddr] :=
          List.mem_cons_of_mem _ (List.mem_singleton.mpr rfl)
        rcases hav : assocGet values fieldName with _ | v
        · dsimp only
          rcases hg2 : interp n (.getF field dataAddr) h with ⟨er, h2⟩
          have pget : Heap.preserves h h2 [valuesAddr, dataAddr] := by
            have := ih (.getF field dataAddr) h
            rw [hg2] at this
            exact Heap.preserves_mono (fun a ha => by cases ha) this
          cases er with
          | error e => exact pget
          | ok o =>
            cases o with
            | val v =>
              simp only [asVal]
              rcases hs2 : interp n (.setF field dataAddr v) h2 with ⟨er2, h3⟩
              have pset : Heap.preserves h2 h3 [valuesAddr, dataAddr] := by
                have := ih (.setF field dataAddr v) h2
                rw [hs2] at this
                refine Heap.preserves_mono (fun a ha => ?_) this
                simp only [reqWrites] at ha
                rcases List.mem_singleton.mp ha with rfl
                exact hdmem
              have p12 := Heap.preserves_trans_same pget pset
              cases er2 with
              | error e => exact p12
              | ok o2 =>
                cases o2 with
                | val v2 => exact p12
                | unit =>
                  have := ih (.initFlds rest valuesAddr dataAddr) h3
                  exact Heap.preserves_trans_same p12 this
                | vals vs => exact p12
            | unit => exact pget
            | vals vs => exact pget
        · dsimp only
          have ppop : Heap.preserves h
              (h.set valuesAddr (.dict (assocRemove values fieldName)))
              [valuesAddr, dataAddr] :=
            Heap.preserves_set_mem h valuesAddr _ _ (List.mem_cons_self _ _)
          rcases hs2 : interp n (.setF field dataAddr v)
              (h.set valuesAddr (.dict (assocRemove values fieldName))) with ⟨er2, h3⟩
          have pset : Heap.preserves (h.set valuesAddr (.dict (assocRemove values fieldName)))
              h3 [valuesAddr, dataAddr] := by
            have := ih (.setF field dataAddr v)
              (h.set valuesAddr (.dict (assocRemove values fieldName)))
            rw [hs2] at this
            refine Heap.preserves_mono (fun a ha => ?_) this
            simp only [reqWrites] at ha
            rcases List.mem_singleton.mp ha with rfl
            exact hdmem
          have p12 := Heap.preserves_trans_same ppop pset
          cases er2 with
          | error e => exact p12
          | ok o2 =>
            cases o2 with
            | val v2 => exact p12
            | unit =>
              have := ih (.initFlds rest valuesAddr dataAddr) h3
              exact Heap.preserves_trans_same p12 this
            | vals vs => exact p12

/-- Frame property of the interpreter: every request only allocates
fresh cells or writes the cells its write set names; all other
pre-existing cells are untouched, and the heap only grows. -/
theorem interp_preserves (fuel : Nat) :
    ∀ req h, Heap.preserves h (interp fuel req h).2 (reqWrites req) := by
  induction fuel with
  | zero => intro req h; exact Heap.preserves_refl h _
  | succ n ih =>
    intro req h
    cases req with
    | getF f dataAddr => exact interp_preserves_getF n ih f dataAddr h
    | setF f dataAddr value => exact interp_preserves_setF n ih f dataAddr value h
    | toPy f v => exact interp_preserves_toPy n ih f v h
    | toJs f v => exact interp_preserves_toJs n ih f v h
    | jsItems elem items => exact interp_preserves_jsItems n ih elem items h
    | jsProxyItems elem pf items => exact interp_preserves_jsProxyItems n ih elem pf items h
    | fromKw m v => exact interp_preserves_fromKw n ih m v h
    | init cls valuesAddr => exact interp_preserves_init n ih cls valuesAddr h
    | initFlds flds valuesAddr dataAddr =>
      exact interp_preserves_initFlds n ih flds valuesAddr dataAddr h

theorem fieldGet_present (fuel : Nat) (f : Field) (dataAddr : Nat) (h : Heap)
    (data : List (String × Val)) (v : Val) (hd : h.get? dataAddr = some (.dict data))
    (hv : assocGet data f.storageKey = some v) (hnn : v.isNull = false) :
    fieldGet (fuel + 1) f dataAddr h = toPython fuel f v h := by
  simp only [fieldGet, toPython, interp, hd, hv, Option.getD_some]
  rw [hnn]
  rfl

theorem fieldGet_default (fuel : Nat) (f : Field) (dataAddr : Nat) (h : Heap)
    (data : List (String × Val)) (d : Dflt) (hd : h.get? dataAddr = some (.dict data))
    (habs : assocGet data f.storageKey = none ∨ assocGet data f.storageKey = some .null)
    (hdef : f.default = some d) :
    fieldGet (fuel + 1) f dataAddr h =
      (.ok (resolveDefault d h).1, (resolveDefault d h).2) := by
  rcases hrd : resolveDefault d h with ⟨v2, h2⟩
  rcases habs with habs | habs
  · simp only [fieldGet, interp, hd, habs, hdef, Option.getD_none, Val.isNull,
      Bool.not_true, Bool.false_eq_true, if_false, hrd, asVal]
  · simp only [fieldGet, interp, hd, habs, hdef, Option.getD_some, Val.isNull,
      Bool.not_true, Bool.false_eq_true, if_false, hrd, asVal]

theorem fieldGet_nodefault (fuel : Nat) (f : Field) (dataAddr : Nat) (h : Heap)
    (data : List (String × Val)) (hd : h.get? dataAddr = some (.dict data))
    (habs : assocGet data f.storageKey = none ∨ assocGet data f.storageKey = some .null)
    (hdef : f.default = none) :
    fieldGet (fuel + 1) f dataAddr h = (.ok .null, h) := by
  rcases habs with habs | habs
  · simp only [fieldGet, interp, hd, habs, hdef, Option.getD_none, Val.isNull,
      Bool.not_true, Bool.false_eq_true, if_false, asVal]
  · simp only [fieldGet, interp, hd, habs, hdef, Option.getD_some, Val.isNull,
      Bool.not_true, Bool.false_eq_true, if_false, asVal]

/-- C3: reading a field on a record returns the to-typed conversion of
the stored raw value when that value is present and not null; when the
slot is absent or explicitly null and a default is configured, the
resolved default (a callable is invoked) is returned instead; when the
slot is absent or null and no default is configured, null is returned. -/
theorem c3_field_read_contract (fuel : Nat) (f : Field) (dataAddr : Nat) (h : Heap)
    (data : List (String × Val)) (hd : h.get? dataAddr = some (.dict data)) :
    (∀ v, assocGet data f.storageKey = some v → v.isNull = false →
      fieldGet (fuel + 1) f dataAddr h = toPython fuel f v h) ∧
    (∀ d, (assocGet data f.storageKey = none ∨ assocGet data f.storageKey = some .null) →
      f.default = some d →
      fieldGet (fuel + 1) f dataAddr h = (.ok (resolveDefault d h).1, (resolveDefault d h).2)) ∧
    ((assocGet data f.storageKey = none ∨ assocGet data f.storageKey = some .null) →
      f.default = none →
      fieldGet (fuel + 1) f dataAddr h = (.ok .null, h)) := by
  refine ⟨?_, ?_, ?_⟩
  · intro v hv hnn
    exact fieldGet_present fuel f dataAddr h data v hd hv hnn
  · intro d habs hdef
    exact fieldGet_default fuel f dataAddr h data d hd habs hdef
  · intro habs hdef
    exact fieldGet_nodefault fuel f dataAddr h data hd habs hdef

/-- Witness for C3: a concrete present value is converted, a concrete
default is materialized on an absent slot, and a concrete defaultless
absent slot reads as null. -/
theorem c3_field_read_contract_witness :
    fieldGet 5 (Field.mk (some "x") none .text) 0 ⟨[.dict [("x", .strV "abc")]]⟩ =
      (.ok (.strV "abc"), ⟨[.dict [("x", .strV "abc")]]⟩) ∧
    fieldGet 5 (Field.mk (some "x") (some (.plain (.intV 7))) .intK) 0 ⟨[.dict []]⟩ =
      (.ok (.intV 7), ⟨[.dict []]⟩) ∧
    fieldGet 5 (Field.mk (some "x") none .intK) 0 ⟨[.dict [("x", .null)]]⟩ =
      (.ok .null, ⟨[.dict [("x", .null)]]⟩) := by
  refine ⟨?_, ?_, ?_⟩
  · have := (c3_field_read_contract 4 (Field.mk (some "x") none .text) 0
      ⟨[.dict [("x", .strV "abc")]]⟩ [("x", .strV "abc")] rfl).1 (.strV "abc") rfl rfl
    rw [this]
    rfl
  · have := (c3_field_read_contract 4 (Field.mk (some "x") (some (.plain (.intV 7))) .intK) 0
      ⟨[.dict []]⟩ [] rfl).2.1 (.plain (.intV 7)) (Or.inl rfl) rfl
    rw [this]
    rfl
  · exact (c3_field_read_contract 4 (Field.mk (some "x") none .intK) 0
      ⟨[.dict [("x", .null)]]⟩ [("x", .null)] rfl).2.2 (Or.inr rfl) rfl

/-- C9: DictField.init and ListField.init always install a default, a
zero-argument producer copying the (possibly defaulted-to-empty)
captured container; consequently reading such a field on a record whose
slot is absent or explicitly null materializes a fresh, newly allocated
container (never null), the returned reference is the previously
unallocated address, and a second materialization yields a different
container than the first. -/
theorem c9_composite_defaults_fresh (fuel : Nat) (mapping : Option MappingCls)
    (fe : Sum Field MappingCls) (nm nm2 : Option String)
    (dd : Option (List (String × Val))) (dl : Option (List Val))
    (dataAddr : Nat) (h : Heap) (data : List (String × Val))
    (hd : h.get? dataAddr = some (.dict data)) :
    (∃ es, (mkDictField mapping nm dd).default = some (.copyDict es)) ∧
    (∃ items, (mkListField fe nm2 dl).default = some (.copyList items)) ∧
    (∀ f, (f = mkDictField mapping nm dd ∨ f = mkListField fe nm2 dl) →
      (assocGet data f.storageKey = none ∨ assocGet data f.storageKey = some .null) →
      ∃ o : Obj, fieldGet (fuel + 1) f dataAddr h = (.ok (.ref h.size), (h.alloc o).2) ∧
        (Val.ref h.size ≠ Val.null) ∧
        (∀ v2 h2, fieldGet (fuel + 1) f dataAddr (h.alloc o).2 = (.ok v2, h2) →
          v2 ≠ .ref h.size)) := by
  have hddef : (mkDictField mapping nm dd).default =
      some (.copyDict (dd.getD [])) := by
    cases dd <;> rfl
  have hldef : (mkListField fe nm2 dl).default =
      some (.copyList (dl.getD [])) := by
    cases dl <;> rfl
  refine ⟨⟨dd.getD [], hddef⟩, ⟨dl.getD [], hldef⟩, ?_⟩
  intro f hf habs
  have hdata_lt : dataAddr < h.size := Heap.get?_some_lt hd
  have key : ∀ d : Dflt, ∀ o : Obj, f.default = some d →
      (∀ hh : Heap, resolveDefault d hh = ((.ref hh.size : Val), (hh.alloc o).2)) →
      ∃ o2 : Obj, fieldGet (fuel + 1) f dataAddr h = (.ok (.ref h.size), (h.alloc o2).2) ∧
        (Val.ref h.size ≠ Val.null) ∧
        (∀ v2 h2, fieldGet (fuel + 1) f dataAddr (h.alloc o2).2 = (.ok v2, h2) →
          v2 ≠ .ref h.size) := by
    intro d o hdef hres
    refine ⟨o, ?_, ?_, ?_⟩
    · rw [fieldGet_default fuel f dataAddr h data d hd habs hdef, hres h]
    · intro hc
      exact Val.noConfusion hc
    · intro v2 h2 hrun2
      have hd2 : (h.alloc o).2.get? dataAddr = some (.dict data) := by
        rw [Heap.get?_alloc_lt h o hdata_lt]
        exact hd
      rw [fieldGet_default fuel f dataAddr (h.alloc o).2 data d hd2 habs hdef,
        hres (h.alloc o).2] at hrun2
      have hv2 : v2 = .ref (h.alloc o).2.size := by
        have := congrArg Prod.fst hrun2
        simp only [] at this
        exact (Except.ok.inj this).symm
      rw [hv2, Heap.size_alloc]
      intro hc
      have : h.size + 1 = h.size := Val.ref.inj hc
      omega
  rcases hf with rfl | rfl
  · exact key (.copyDict (dd.getD [])) (.dict (dd.getD [])) hddef (fun hh => rfl)
  · exact key (.copyList (dl.getD [])) (.list (dl.getD [])) hldef (fun hh => rfl)

/-- Witness for C9: on a record with an empty backing dict, a DictField
with no declared default materializes a fresh empty dict (address 1 in a
one-cell heap); a second read materializes address 2, a different
container than the first. -/
theorem c9_composite_defaults_fresh_witness :
    fieldGet 5 (mkDictField none (some "f") none) 0 ⟨[.dict []]⟩ =
      (.ok (.ref 1), ⟨[.dict [], .dict []]⟩) ∧
    fieldGet 5 (mkDictField none (some "f") none) 0 ⟨[.dict [], .dict []]⟩ =
      (.ok (.ref 2), ⟨[.dict [], .dict [], .dict []]⟩) ∧
    (Val.ref 2 : Val) ≠ .ref 1 := by
  rcases (c9_composite_defaults_fresh 4 none (.inl (Field.mk none none .text))
    (some "f") (some "g") none none 0 ⟨[.dict []]⟩ [] rfl).2.2
    (mkDictField none (some "f") none) (Or.inl rfl) (Or.inl rfl)
    with ⟨o, hrun, hnn, hsecond⟩
  have h1 : fieldGet 5 (mkDictField none (some "f") none) 0 ⟨[.dict []]⟩ =
      (.ok (.ref 1), ⟨[.dict [], .dict []]⟩) := rfl
  have h3 : ((⟨[.dict []]⟩ : Heap).alloc o).2 = (⟨[.dict [], .dict []]⟩ : Heap) :=
    congrArg Prod.snd (hrun.symm.trans h1)
  have ho : o = .dict [] := by
    have hc := congrArg Heap.cells h3
    simp only [Heap.alloc, List.cons_append, List.nil_append, List.cons.injEq] at hc
    exact hc.2.1
  subst ho
  exact ⟨h1, rfl, hsecond (.ref 2) ⟨[.dict [], .dict [], .dict []]⟩ rfl⟩

/-- C5 counterexample: the claim says calling append with zero
positional values raises the arity error and leaves the raw sequence
unchanged, and likewise for one positional value passed together with
keyword values. On a view whose element descriptor is a nested-record
field, append with zero positional values instead succeeds and appends
the (defaulted) keyword record; and one positional value with keyword
values succeeds, silently ignoring the keywords. -/
theorem c5_arity_error_counterexample :
    c5RunZero.1 = .ok () ∧
    resolveVal 10 c5RunZero.2 (.ref 0) = some (.listV [.dictV [("author", .null)]]) ∧
    c5RunPosKw.1 = .ok () ∧
    resolveVal 10 c5RunPosKw.2 (.ref 0) = some (.listV [.strV "a"]) :=
  ⟨rfl, rfl, rfl, rfl⟩

/-- C5 amended: append and insert raise the arity TypeError exactly when
the number of positional values differs from one and additionally some
positional value was given or the element descriptor is not a
nested-record field; the error is raised before anything is evaluated or
stored, so the whole heap (in particular the wrapped raw sequence) is
unchanged. -/
theorem c5_arity_error_amended (fuel : Nat) (target : Val) (pf : Field) (args : List Val)
    (kwargs : List (String × Val)) (idx : Int) (h : Heap)
    (harity : args.length ≠ 1) (hcase : args ≠ [] ∨ pf.isDictField = false) :
    proxyAppend fuel target pf args kwargs h =
      (.error (.typeError "append takes exactly one argument"), h) ∧
    proxyInsert fuel target pf idx args kwargs h =
      (.error (.typeError "insert takes exactly 2 arguments"), h) := by
  have hcond : (!args.isEmpty || !pf.isDictField) = true := by
    rcases hcase with hne | hdict
    · rcases args with _ | ⟨a, rest⟩
      · exact absurd rfl hne
      · simp [List.isEmpty]
    · simp [hdict]
  constructor
  · rcases args with _ | ⟨a, rest⟩
    · have hdict : pf.isDictField = false := by
        rcases hcase with hne | hdict
        · exact absurd rfl hne
        · exact hdict
      simp [proxyAppend, hcond, hdict]
    · rcases rest with _ | ⟨b, rest2⟩
      · exact absurd rfl harity
      · simp [proxyAppend, hcond]
  · rcases args with _ | ⟨a, rest⟩
    · have hdict : pf.isDictField = false := by
        rcases hcase with hne | hdict
        · exact absurd rfl hne
        · exact hdict
      simp [proxyInsert, hcond, hdict]
    · rcases rest with _ | ⟨b, rest2⟩
      · exact absurd rfl harity
      · simp [proxyInsert, hcond]

/-- Witness for C5 amended: zero positional values on a text-element
view raise for both append and insert, leaving the one-cell heap
unchanged. -/
theorem c5_arity_error_amended_witness :
    proxyAppend 5 (.ref 0) (Field.mk (some "t") none .text) [] [] ⟨[.list [.strV "x"]]⟩ =
      (.error (.typeError "append takes exactly one argument"), ⟨[.list [.strV "x"]]⟩) ∧
    proxyInsert 5 (.ref 0) (Field.mk (some "t") none .text) 0 [] [] ⟨[.list [.strV "x"]]⟩ =
      (.error (.typeError "insert takes exactly 2 arguments"), ⟨[.list [.strV "x"]]⟩) :=
  c5_arity_error_amended 5 (.ref 0) (Field.mk (some "t") none .text) [] [] 0
    ⟨[.list [.strV "x"]]⟩ (by simp) (Or.inr rfl)

/-- C6: reading a slice of a sequence view returns a new view of the
same kind — a Proxy over a freshly allocated list holding the raw slice,
elements unconverted — with the same element descriptor, not a
materialized sequence of typed values; reading a single valid index
returns the element descriptor's to-typed conversion of the raw item at
the normalized index. -/
theorem c6_slice_read (fuel : Nat) (a : Nat) (pf : Field) (items : List Val)
    (i j idx : Int) (h : Heap) (hl : h.get? a = some (.list items)) :
    (proxyGetSlice (.ref a) pf i j h =
      (.ok (.proxy (.ref h.size) pf), (h.alloc (.list (pySliceList items i j))).2)) ∧
    (∀ n2, pyNormIndex idx items.length = some n2 →
      proxyGetItem fuel (.ref a) pf idx h = toPython fuel pf (items.getD n2 .null) h) := by
  constructor
  · simp [proxyGetSlice, hl, Heap.alloc, Heap.size]
  · intro n2 hn
    simp [proxyGetItem, hl, hn]

/-- Witness for C6: slicing a three-element raw list of strings from
index 1 returns a proxy over the fresh one-cell-later list holding the
raw tail, and reading index -1 converts the raw last item. -/
theorem c6_slice_read_witness :
    proxyGetSlice (.ref 0) (Field.mk (some "t") none .text) 1 3
      ⟨[.list [.strV "a", .strV "b", .strV "c"]]⟩ =
      (.ok (.proxy (.ref 1) (Field.mk (some "t") none .text)),
        ⟨[.list [.strV "a", .strV "b", .strV "c"], .list [.strV "b", .strV "c"]]⟩) ∧
    proxyGetItem 5 (.ref 0) (Field.mk (some "t") none .text) (-1)
      ⟨[.list [.strV "a", .strV "b", .strV "c"]]⟩ =
      (.ok (.strV "c"), ⟨[.list [.strV "a", .strV "b", .strV "c"]]⟩) := by
  have hc := c6_slice_read 5 0 (Field.mk (some "t") none .text)
    [.strV "a", .strV "b", .strV "c"] 1 3 (-1) ⟨[.list [.strV "a", .strV "b", .strV "c"]]⟩ rfl
  constructor
  · rw [hc.1]
    rfl
  · rw [hc.2 2 rfl]
    rfl

theorem assocGet_foldIns {α : Type} (es acc : List (String × α)) (k : String)
    (hnd : (es.map Prod.fst).Nodup) :
    assocGet (es.foldl (fun acc2 kv => assocSet acc2 kv.1 kv.2) acc) k =
      (match assocGet es k with
       | some v => some v
       | none => assocGet acc k) := by
  induction es generalizing acc with
  | nil => simp [assocGet]
  | cons kv rest ih =>
    rcases kv with ⟨k1, v1⟩
    rcases List.nodup_cons.mp hnd with ⟨hk1, hrest⟩
    simp only [List.foldl_cons]
    rw [ih _ hrest]
    by_cases h1 : k1 = k
    · subst h1
      have hnone : assocGet rest k1 = none := (assocGet_eq_none_iff rest k1).mpr hk1
      simp [assocGet, hnone, assocGet_assocSet]
    · cases hr : assocGet rest k
      · simp [assocGet, h1, hr, assocGet_assocSet]
      · simp [assocGet, h1, hr]

theorem assocGet_basesFold (bases : List MappingCls) (acc : List (String × Field)) (k : String)
    (hnd : ∀ b ∈ bases, (b.fields.map Prod.fst).Nodup) :
    assocGet (bases.foldl
        (fun acc2 b => b.fields.foldl (fun a3 kv => assocSet a3 kv.1 kv.2) acc2) acc) k =
      (match basesLookup bases k with
       | some f => some f
       | none => assocGet acc k) := by
  induction bases generalizing acc with
  | nil => simp [basesLookup]
  | cons b rest ih =>
    simp only [List.foldl_cons, basesLookup]
    rw [ih _ (fun b2 hb2 => hnd b2 (List.mem_cons_of_mem _ hb2))]
    cases hbl : basesLookup rest k
    · simp only []
      rw [assocGet_foldIns b.fields acc k (hnd b (List.mem_cons_self _ _))]
      cases assocGet b.fields k <;> rfl
    · rfl

theorem assocGet_dctFold (dct acc : List (String × Field)) (k : String)
    (hnd : (dct.map Prod.fst).Nodup) :
    assocGet (dct.foldl
        (fun acc2 kv => assocSet acc2 kv.1 (bindFieldName kv.1 kv.2)) acc) k =
      (match assocGet dct k with
       | some f => some (bindFieldName k f)
       | none => assocGet acc k) := by
  induction dct generalizing acc with
  | nil => simp [assocGet]
  | cons kv rest ih =>
    rcases kv with ⟨k1, v1⟩
    rcases List.nodup_cons.mp hnd with ⟨hk1, hrest⟩
    simp only [List.foldl_cons]
    rw [ih _ hrest]
    by_cases h1 : k1 = k
    · subst h1
      have hnone : assocGet rest k1 = none := (assocGet_eq_none_iff rest k1).mpr hk1
      simp [assocGet, hnone, assocGet_assocSet]
    · cases hr : assocGet rest k
      · simp [assocGet, h1, hr, assocGet_assocSet]
      · simp [assocGet, h1, hr]

/-- C7: the finalized name-to-descriptor table of a schema declaration
behaves as the union of the ancestors' tables and the body's own
Field-valued attributes: the body's fields (name-bound if their name was
falsy) win every collision, and among ancestors a later-listed base's
field of the same name overrides an earlier-listed one. -/
theorem c7_schema_inheritance (bases : List MappingCls) (dct : List (String × Field))
    (k : String) (hb : ∀ b ∈ bases, (b.fields.map Prod.fst).Nodup)
    (hd : (dct.map Prod.fst).Nodup) :
    assocGet (mkMappingCls bases dct).fields k =
      (match assocGet dct k with
       | some f => some (bindFieldName k f)
       | none => basesLookup bases k) := by
  have hunfold : (mkMappingCls bases dct).fields =
      dct.foldl (fun acc kv => assocSet acc kv.1 (bindFieldName kv.1 kv.2))
        (bases.foldl
          (fun acc b => b.fields.foldl (fun acc2 kv => assocSet acc2 kv.1 kv.2) acc) []) := rfl
  rw [hunfold, assocGet_dctFold dct _ k hd, assocGet_basesFold bases [] k hb]
  cases assocGet dct k
  · cases basesLookup bases k <;> rfl
  · rfl

/-- Witness for C7: with two bases both declaring b (the later base
winning) and a body declaring a nameless a (bound to its attribute
name), the finalized table resolves a to the bound body field, b to the
later base's field, and an undeclared name to nothing. -/
theorem c7_schema_inheritance_witness :
    assocGet (mkMappingCls
      [.mk [("a", Field.mk (some "a") none .intK), ("b", Field.mk (some "b") none .intK)],
       .mk [("b", Field.mk (some "b") none .dateTimeK)]]
      [("a", Field.mk none none .text)]).fields "a" =
        some (Field.mk (some "a") none .text) ∧
    assocGet (mkMappingCls
      [.mk [("a", Field.mk (some "a") none .intK), ("b", Field.mk (some "b") none .intK)],
       .mk [("b", Field.mk (some "b") none .dateTimeK)]]
      [("a", Field.mk none none .text)]).fields "b" =
        some (Field.mk (some "b") none .dateTimeK) ∧
    assocGet (mkMappingCls
      [.mk [("a", Field.mk (some "a") none .intK), ("b", Field.mk (some "b") none .intK)],
       .mk [("b", Field.mk (some "b") none .dateTimeK)]]
      [("a", Field.mk none none .text)]).fields "c" = none := by
  refine ⟨?_, ?_, ?_⟩
  all_goals
    rw [c7_schema_inheritance _ _ _ (by
      intro b hb
      rcases List.mem_cons.mp hb with rfl | hb2
      · simp [MappingCls.fields]
      · rcases List.mem_cons.mp hb2 with rfl | hb3
        · simp [MappingCls.fields]
        · cases hb3) (by simp)]
    rfl

/-- C4: constructing a record of the one-sequence-of-date-time-field
schema from a raw mapping holding an empty sequence, then appending the
datetime 2007-04-01 15:30:00 through the field's view, makes unwrap
resolve to the mapping sending dates to the singleton raw sequence
holding the canonical string 2007-04-01T15:30:00Z; the Boolean
component certifies the sharing: the view wraps the very list object
(same address) stored in the record's backing dict, so the append
mutated the record's storage in place. -/
theorem c4_sequence_view_mutation :
    c4Run = some (.dictV [("dates", .listV [.strV "2007-04-01T15:30:00Z"])], true) := rfl

theorem toJs_dictK_some_nonrecord (fuel : Nat) (m : MappingCls) (f : Field) (v : Val)
    (h : Heap) (hk : f.kind = .dictK (some m)) (hnr : ∀ cls dA, v ≠ .record cls dA) :
    toJson (fuel + 1) f v h = unwrapStep (fromKwargsVal fuel m v h) := by
  simp only [toJson, interp, hk]
  rcases hres : interp fuel (.fromKw m v) h with ⟨er, h2⟩
  rcases v with _ | b | nn | s | a | d | dd | ⟨cls, dA⟩ | ⟨tgt, pf⟩
  case record => exact absurd rfl (hnr _ _)
  all_goals
    simp only [unwrapStep, fromKwargsVal, hres]
    cases er with
    | error e => rfl
    | ok o =>
      cases o with
      | val v2 =>
        show asVal ((unwrapVal v2).map Out.val, h2) = (unwrapVal v2, h2)
        cases huv : unwrapVal v2 <;> rfl
      | unit => rfl
      | vals vs => rfl

/-- C8 counterexample: the claim prescribes that to_raw of every value
that is not already a Record of the designated schema first constructs a
Record of that schema from it and unwraps that; for a record of a
different schema the code instead returns its unwrap directly. On a
foreign record with empty backing dict and designated schema with one
text field x, the code yields the empty mapping, while the claim's
construct-then-unwrap path yields the mapping seeding x with null — two
different contents. -/
theorem c8_dictfield_counterexample :
    c8Code.1 = .ok (.ref 0) ∧
    resolveVal 10 c8Code.2 (.ref 0) = some (.dictV []) ∧
    c8SpecPath.1 = .ok (.ref 3) ∧
    resolveVal 10 c8SpecPath.2 (.ref 3) = some (.dictV [("x", .null)]) ∧
    (some (PureVal.dictV []) : Option PureVal) ≠ some (.dictV [("x", .null)]) := by
  refine ⟨rfl, rfl, rfl, rfl, ?_⟩
  intro hc
  simp only [Option.some.injEq, PureVal.dictV.injEq] at hc
  exact List.noConfusion hc

/-- C8 amended: for a nested-record field with a designated schema,
to_typed builds a record of that schema from the value via from_kwargs;
to_raw takes a record of any schema as-is (the isinstance test is
against the Mapping base class, not the designated schema) and every
non-record value through from_kwargs of the designated schema, then
unwraps the outcome, storing the live backing dict reference; with no
designated schema both conversions return the value verbatim. -/
theorem c8_dictfield_conversions (fuel : Nat) (m : MappingCls) (nm : Option String)
    (dd : Option (List (String × Val))) (v : Val) (h : Heap) :
    (toPython (fuel + 1) (mkDictField (some m) nm dd) v h = fromKwargsVal fuel m v h) ∧
    (∀ cls dA, toJson (fuel + 1) (mkDictField (some m) nm dd) (.record cls dA) h =
      (.ok (.ref dA), h)) ∧
    ((∀ cls dA, v ≠ .record cls dA) →
      toJson (fuel + 1) (mkDictField (some m) nm dd) v h =
        unwrapStep (fromKwargsVal fuel m v h)) ∧
    (toPython (fuel + 1) (mkDictField none nm dd) v h = (.ok v, h) ∧
      toJson (fuel + 1) (mkDictField none nm dd) v h = (.ok v, h)) := by
  refine ⟨rfl, fun cls dA => rfl, ?_, rfl, rfl⟩
  intro hnr
  exact toJs_dictK_some_nonrecord fuel m (mkDictField (some m) nm dd) v h rfl hnr

/-- Witness for C8 amended: a raw author dict converts into a record of
the designated schema and back, and the no-schema field passes an int
through unchanged. -/
theorem c8_dictfield_conversions_witness :
    toJson 10 (mkDictField (some c5Cls) (some "f") none) (.ref 0)
      ⟨[.dict [("author", .strV "me")]]⟩ =
      unwrapStep (fromKwargsVal 9 c5Cls (.ref 0) ⟨[.dict [("author", .strV "me")]]⟩) ∧
    toJson 10 (mkDictField none (some "f") none) (.intV 3) ⟨[]⟩ =
      (.ok (.intV 3), ⟨[]⟩) :=
  ⟨(c8_dictfield_conversions 9 c5Cls (some "f") none (.ref 0)
      ⟨[.dict [("author", .strV "me")]]⟩).2.2.1 (fun cls dA => by intro hc; cases hc),
   (c8_dictfield_conversions 9 c5Cls (some "f") none (.intV 3) ⟨[]⟩).2.2.2.2⟩

theorem stripMicro_no_dot (l : List Char) (h1 : ∀ c ∈ l, c ≠ '.') :
    stripMicro l = l := by
  induction l with
  | nil => rfl
  | cons c rest ih =>
    have hc : c ≠ '.' := h1 c (List.mem_cons_self _ _)
    simp only [stripMicro, List.takeWhile_cons]
    simp only [hc, ne_eq, not_false_eq_true, decide_True, if_true, List.cons.injEq, true_and]
    exact ih (fun c2 hc2 => h1 c2 (List.mem_cons_of_mem _ hc2))

theorem stripMicro_append_no_dot (l1 l2 : List Char) (h1 : ∀ c ∈ l1, c ≠ '.') :
    stripMicro (l1 ++ '.' :: l2) = l1 := by
  induction l1 with
  | nil => simp [stripMicro]
  | cons c rest ih =>
    have hc : c ≠ '.' := h1 c (List.mem_cons_self _ _)
    simp only [List.cons_append, stripMicro, List.takeWhile_cons]
    simp only [hc, ne_eq, not_false_eq_true, decide_True, if_true, List.cons.injEq, true_and]
    exact ih (fun c2 hc2 => h1 c2 (List.mem_cons_of_mem _ hc2))

theorem stripMicro_append_of_dot (l1 l2 : List Char) (h : ¬ ∀ c ∈ l1, c ≠ '.') :
    stripMicro (l1 ++ l2) = stripMicro l1 := by
  induction l1 with
  | nil => exact absurd (fun c hc => absurd hc (List.not_mem_nil c)) h
  | cons c rest ih =>
    by_cases hc : c = '.'
    · subst hc
      simp [stripMicro]
    · have hrest : ¬ ∀ c2 ∈ rest, c2 ≠ '.' := by
        intro hall
        exact h (fun c2 hc2 => by
          rcases List.mem_cons.mp hc2 with rfl | hm
          · exact hc
          · exact hall c2 hm)
      simp only [List.cons_append, stripMicro, List.takeWhile_cons]
      simp only [hc, ne_eq, not_false_eq_true, decide_True, if_true, List.cons.injEq, true_and]
      exact ih hrest

theorem rstripZ_append_Z (l : List Char) : rstripZ (l ++ ['Z']) = rstripZ l := by
  simp [rstripZ, List.dropWhile]

theorem parseDateTimeText_strip_Z (s : String) :
    parseDateTimeText (s ++ "Z") = parseDateTimeText s := by
  unfold parseDateTimeText
  have hdata : (s ++ "Z").data = s.data ++ ['Z'] := by
    cases s
    rfl
  rw [hdata]
  by_cases hdot : ∀ c ∈ s.data, c ≠ '.'
  · have hall : ∀ c ∈ s.data ++ ['Z'], c ≠ '.' := by
      intro c hc
      rcases List.mem_append.mp hc with hm | hm
      · exact hdot c hm
      · rcases List.mem_singleton.mp hm with rfl
        decide
    rw [stripMicro_no_dot _ hall, stripMicro_no_dot _ hdot, rstripZ_append_Z]
  · rw [stripMicro_append_of_dot s.data ['Z'] hdot]

theorem dateTimeToJson_parse (s : String) (d : PyDatetime)
    (hp : parseDateTimeText s = some d) :
    dateTimeToJson (.strV s) = .ok (.strV (dateTimeRenderZ d)) := by
  simp [dateTimeToJson, dateTimeToPython, hp]

/-- C10: DateTimeField typed-to-raw on text first runs the text parser
and then renders, so it coincides with typed-to-raw composed after
text-to-typed (errors propagating identically); when the text parses,
the result is the canonical seconds-precision Z-suffixed rendering of
the parse, and writing the raw text through the typed write path stores
exactly that canonical string; trailing Z characters and everything
from the first dot on (the fractional seconds) are discarded by the
parser. -/
theorem c10_datetime_canonicalization (fuel : Nat) (s t : String) :
    (dateTimeToJson (.strV s) = (dateTimeToPython (.strV s)).bind dateTimeToJson) ∧
    (∀ d, parseDateTimeText s = some d →
      dateTimeToJson (.strV s) = .ok (.strV (dateTimeRenderZ d))) ∧
    (parseDateTimeText (s ++ "Z") = parseDateTimeText s) ∧
    ((∀ c ∈ s.data, c ≠ '.') →
      parseDateTimeText (s ++ "." ++ t) = parseDateTimeText s) ∧
    (∀ (f : Field) (dataAddr : Nat) (h : Heap) (data : List (String × Val))
        (d : PyDatetime), f.kind = .dateTimeK →
      h.get? dataAddr = some (.dict data) → parseDateTimeText s = some d →
      fieldSet (fuel + 2) f dataAddr (.strV s) h =
        (.ok (), h.set dataAddr (.dict (assocSet data f.storageKey
          (.strV (dateTimeRenderZ d)))))) := by
  refine ⟨?_, ?_, parseDateTimeText_strip_Z s, ?_, ?_⟩
  · cases hp : parseDateTimeText s <;>
      simp [dateTimeToJson, dateTimeToPython, hp, Except.bind]
  · intro d hp
    exact dateTimeToJson_parse s d hp
  · intro hdot
    unfold parseDateTimeText
    have hdata : (s ++ "." ++ t).data = s.data ++ '.' :: t.data := by
      cases s
      cases t
      simp [String.data]
    rw [hdata, stripMicro_append_no_dot s.data t.data hdot, stripMicro_no_dot s.data hdot]
  · intro f dataAddr h data d hk hd hp
    have hjs : dateTimeToJson (.strV s) = .ok (.strV (dateTimeRenderZ d)) :=
      dateTimeToJson_parse s d hp
    simp only [fieldSet, interp, Val.isNull, Bool.not_false, if_pos rfl, if_true, hk,
      hjs, Except.map, asVal, hd, asUnit]

/-- Witness for C10: a raw date-time string with fractional seconds and
a trailing Z parses, renders canonically, and is stored in canonical
form by the typed write path. -/
theorem c10_datetime_canonicalization_witness :
    dateTimeToJson (.strV "2007-04-01T15:30:00.9876Z") =
      .ok (.strV "2007-04-01T15:30:00Z") ∧
    parseDateTimeText ("2007-04-01T15:30:00" ++ "." ++ "9876Z") =
      parseDateTimeText "2007-04-01T15:30:00" ∧
    fieldSet 5 (Field.mk (some "ts") none .dateTimeK) 0
      (.strV "2007-04-01T15:30:00.9876Z") ⟨[.dict []]⟩ =
      (.ok (), ⟨[.dict [("ts", .strV "2007-04-01T15:30:00Z")]]⟩) := by
  refine ⟨?_, ?_, ?_⟩
  · rw [(c10_datetime_canonicalization 3 "2007-04-01T15:30:00.9876Z" "x").2.1
      ⟨2007, 4, 1, 15, 30, 0, 0⟩ rfl]
    rfl
  · exact (c10_datetime_canonicalization 3 "2007-04-01T15:30:00" "9876Z").2.2.2.1
      (by decide)
  · rw [(c10_datetime_canonicalization 3 "2007-04-01T15:30:00.9876Z" "x").2.2.2.2
      (Field.mk (some "ts") none .dateTimeK) 0 ⟨[.dict []]⟩ []
      ⟨2007, 4, 1, 15, 30, 0, 0⟩ rfl rfl rfl]
    rfl

theorem resolveAvoid_frame : ∀ (n : Nat) (h h2 : Heap) (bad : List Nat) (v : Val)
    (p : PureVal), Heap.preserves h h2 bad → resolveAvoid n h bad v = some p →
    resolveAvoid n h2 bad v = some p := by
  intro n
  induction n with
  | zero =>
    intro h h2 bad v p hp hr
    simp [resolveAvoid] at hr
  | succ n ih =>
    intro h h2 bad v p hp hr
    rcases v with _ | b | nn | s | a | d | dd | ⟨cls, dA⟩ | ⟨tgt, pf⟩
    case ref =>
      by_cases hb : a ∈ bad
      · simp [resolveAvoid, hb] at hr
      · rcases hga : h.get? a with _ | o
        · simp only [resolveAvoid, if_neg hb, hga] at hr
          exact Option.noConfusion hr
        · have ha : a < h.size := Heap.get?_some_lt hga
          have hga2 : h2.get? a = some o := by rw [hp.2 a ha hb]; exact hga
          rcases o with items | es
          · simp only [resolveAvoid, if_neg hb, hga] at hr
            simp only [resolveAvoid, if_neg hb, hga2]
            have hmap : ∀ (xs : List Val) (res : List PureVal),
                xs.mapM (resolveAvoid n h bad) = some res →
                xs.mapM (resolveAvoid n h2 bad) = some res := by
              intro xs
              induction xs with
              | nil => intro res hres; simpa using hres
              | cons x rest ihx =>
                intro res hres
                rw [List.mapM_cons] at hres ⊢
                rcases hx : resolveAvoid n h bad x with _ | px
                · rw [hx] at hres
                  exact absurd hres (by simp)
                · rw [hx] at hres
                  rcases hrest : rest.mapM (resolveAvoid n h bad) with _ | ps
                  · rw [hrest] at hres
                    exact absurd hres (by simp)
                  · rw [hrest] at hres
                    rw [ih h h2 bad x px hp hx, ihx ps hrest]
                    exact hres
            rcases hmm : items.mapM (resolveAvoid n h bad) with _ | res
            · rw [hmm] at hr
              exact absurd hr (by simp)
            · rw [hmm] at hr
              rw [hmap items res hmm]
              exact hr
          · simp only [resolveAvoid, if_neg hb, hga] at hr
            simp only [resolveAvoid, if_neg hb, hga2]
            have hmap : ∀ (xs : List (String × Val)) (res : List (String × PureVal)),
                xs.mapM (fun kv => (resolveAvoid n h bad kv.2).map fun p2 => (kv.1, p2))
                  = some res →
                xs.mapM (fun kv => (resolveAvoid n h2 bad kv.2).map fun p2 => (kv.1, p2))
                  = some res := by
              intro xs
              induction xs with
              | nil => intro res hres; simpa using hres
              | cons x rest ihx =>
                intro res hres
                rw [List.mapM_cons] at hres ⊢
                rcases hx : resolveAvoid n h bad x.2 with _ | px
                · rw [hx] at hres
                  exact absurd hres (by simp)
                · rw [hx] at hres
                  rcases hrest : rest.mapM
                      (fun kv => (resolveAvoid n h bad kv.2).map fun p2 => (kv.1, p2))
                      with _ | ps
                  · rw [hrest] at hres
                    exact absurd hres (by simp)
                  · rw [hrest] at hres
                    rw [ih h h2 bad x.2 px hp hx, ihx ps hrest]
                    exact hres
            rcases hmm : es.mapM
                (fun kv => (resolveAvoid n h bad kv.2).map fun p2 => (kv.1, p2))
                with _ | res
            · rw [hmm] at hr
              exact absurd hr (by simp)
            · rw [hmm] at hr
              rw [hmap es res hmm]
              exact hr
    all_goals simpa [resolveAvoid] using hr

theorem resolveAvoid_imp_resolveVal : ∀ (n : Nat) (h : Heap) (bad : List Nat) (v : Val)
    (p : PureVal), resolveAvoid n h bad v = some p → resolveVal n h v = some p := by
  intro n
  induction n with
  | zero =>
    intro h bad v p hr
    simp [resolveAvoid] at hr
  | succ n ih =>
    intro h bad v p hr
    rcases v with _ | b | nn | s | a | d | dd | ⟨cls, dA⟩ | ⟨tgt, pf⟩
    case ref =>
      by_cases hb : a ∈ bad
      · simp [resolveAvoid, hb] at hr
      · rcases hga : h.get? a with _ | o
        · simp only [resolveAvoid, if_neg hb, hga] at hr
          exact Option.noConfusion hr
        · rcases o with items | es
          · simp only [resolveAvoid, if_neg hb, hga] at hr
            simp only [resolveVal, hga]
            have hmap : ∀ (xs : List Val) (res : List PureVal),
                xs.mapM (resolveAvoid n h bad) = some res →
                xs.mapM (resolveVal n h) = some res := by
              intro xs
              induction xs with
              | nil => intro res hres; simpa using hres
              | cons x rest ihx =>
                intro res hres
                rw [List.mapM_cons] at hres ⊢
                rcases hx : resolveAvoid n h bad x with _ | px
                · rw [hx] at hres
                  exact absurd hres (by simp)
                · rw [hx] at hres
                  rcases hrest : rest.mapM (resolveAvoid n h bad) with _ | ps
                  · rw [hrest] at hres
                    exact absurd hres (by simp)
                  · rw [hrest] at hres
                    rw [ih h bad x px hx, ihx ps hrest]
                    exact hres
            rcases hmm : items.mapM (resolveAvoid n h bad) with _ | res
            · rw [hmm] at hr
              exact absurd hr (by simp)
            · rw [hmm] at hr
              rw [hmap items res hmm]
              exact hr
          · simp only [resolveAvoid, if_neg hb, hga] at hr
            simp only [resolveVal, hga]
            have hmap : ∀ (xs : List (String × Val)) (res : List (String × PureVal)),
                xs.mapM (fun kv => (resolveAvoid n h bad kv.2).map fun p2 => (kv.1, p2))
                  = some res →
                xs.mapM (fun kv => (resolveVal n h kv.2).map fun p2 => (kv.1, p2))
                  = some res := by
              intro xs
              induction xs with
              | nil => intro res hres; simpa using hres
              | cons x rest ihx =>
                intro res hres
                rw [List.mapM_cons] at hres ⊢
                rcases hx : resolveAvoid n h bad x.2 with _ | px
                · rw [hx] at hres
                  exact absurd hres (by simp)
                · rw [hx] at hres
                  rcases hrest : rest.mapM
                      (fun kv => (resolveAvoid n h bad kv.2).map fun p2 => (kv.1, p2))
                      with _ | ps
                  · rw [hrest] at hres
                    exact absurd hres (by simp)
                  · rw [hrest] at hres
                    rw [ih h bad x.2 px hx, ihx ps hrest]
                    exact hres
            rcases hmm : es.mapM
                (fun kv => (resolveAvoid n h bad kv.2).map fun p2 => (kv.1, p2))
                with _ | res
            · rw [hmm] at hr
              exact absurd hr (by simp)
            · rw [hmm] at hr
              rw [hmap es res hmm]
              exact hr
    all_goals simpa [resolveAvoid, resolveVal] using hr

theorem fieldSet_ok_inv (n : Nat) (f : Field) (dA : Nat) (v : Val) (h h2 : Heap)
    (hrun : fieldSet (n + 1) f dA v h = (.ok (), h2)) :
    ∃ w hmid D1, Heap.preserves h hmid [] ∧ hmid.get? dA = some (.dict D1) ∧
      h2 = hmid.set dA (.dict (assocSet D1 f.storageKey w)) ∧
      ((v.isNull = true ∧ w = v ∧ hmid = h) ∨
       (v.isNull = false ∧ toJson n f v h = (.ok w, hmid))) := by
  cases hnull : v.isNull with
  | true =>
    rcases hd : h.get? dA with _ | o
    · simp only [fieldSet, interp, hnull, Bool.not_true, Bool.false_eq_true, if_false, hd,
        asUnit] at hrun
      exact Except.noConfusion (congrArg Prod.fst hrun)
    · rcases o with items | D
      · simp only [fieldSet, interp, hnull, Bool.not_true, Bool.false_eq_true, if_false, hd,
          asUnit] at hrun
        exact Except.noConfusion (congrArg Prod.fst hrun)
      · simp only [fieldSet, interp, hnull, Bool.not_true, Bool.false_eq_true, if_false, hd,
          asUnit, Prod.mk.injEq] at hrun
        refine ⟨v, h, D, Heap.preserves_refl h [], hd, hrun.2.symm, .inl ⟨rfl, rfl, rfl⟩⟩
  | false =>
    rcases hc : interp n (.toJs f v) h with ⟨er, hmid0⟩
    have hpres : Heap.preserves h hmid0 [] := by
      have hp := interp_preserves n (.toJs f v) h
      rw [hc] at hp
      exact hp
    rcases er with e | o
    · simp only [fieldSet, interp, hnull, Bool.not_false, eq_self_iff_true, if_true, hc,
        asVal, asUnit] at hrun
      exact Except.noConfusion (congrArg Prod.fst hrun)
    · rcases o with w | _ | vs
      case val =>
        rcases hd : hmid0.get? dA with _ | o2
        · simp only [fieldSet, interp, hnull, Bool.not_false, eq_self_iff_true, if_true, hc,
            asVal, hd, asUnit] at hrun
          exact Except.noConfusion (congrArg Prod.fst hrun)
        · rcases o2 with items | D1
          · simp only [fieldSet, interp, hnull, Bool.not_false, eq_self_iff_true, if_true, hc,
              asVal, hd, asUnit] at hrun
            exact Except.noConfusion (congrArg Prod.fst hrun)
          · simp only [fieldSet, interp, hnull, Bool.not_false, eq_self_iff_true, if_true, hc,
              asVal, hd, asUnit, Prod.mk.injEq] at hrun
            refine ⟨w, hmid0, D1, hpres, hd, hrun.2.symm, .inr ⟨rfl, ?_⟩⟩
            simp only [toJson, hc, asVal]
      all_goals
        simp only [fieldSet, interp, hnull, Bool.not_false, eq_self_iff_true, if_true, hc,
          asVal, asUnit] at hrun
      all_goals exact Except.noConfusion (congrArg Prod.fst hrun)

theorem initFields_spec : ∀ (L : List (String × Field)) (fuel : Nat) (vA dA : Nat)
    (h h' : Heap) (V D : List (String × Val)),
    initFields fuel L vA dA h = (.ok (), h') →
    vA ≠ dA →
    (V.map Prod.fst).Nodup →
    (L.map Prod.fst).Nodup →
    (∀ p ∈ L, p.2.storageKey = p.1) →
    h.get? vA = some (.dict V) →
    h.get? dA = some (.dict D) →
    ∃ V2 D2, h'.get? vA = some (.dict V2) ∧ h'.get? dA = some (.dict D2) ∧
      Heap.preserves h h' [vA, dA] ∧
      (∀ k, assocGet V2 k = if k ∈ L.map Prod.fst then none else assocGet V k) ∧
      (∀ k, k ∉ L.map Prod.fst → assocGet D2 k = assocGet D k) ∧
      (∀ k f, (k, f) ∈ L →
        (∀ v, assocGet V k = some v →
          ∃ mj w, assocGet D2 k = some w ∧
            ((v.isNull = true ∧ w = v) ∨
             (v.isNull = false ∧ ∃ h1 hmid2, Heap.preserves h h1 [vA, dA] ∧
                toJson mj f v h1 = (.ok w, hmid2) ∧ Heap.preserves hmid2 h' [vA, dA]))) ∧
        (assocGet V k = none →
          ∃ mg mj v h1 h2 w, Heap.preserves h h1 [vA, dA] ∧
            fieldGet mg f dA h1 = (.ok v, h2) ∧
            ((v.isNull = true ∧ w = v) ∨
             (v.isNull = false ∧ ∃ hmid2, toJson mj f v h2 = (.ok w, hmid2))) ∧
            assocGet D2 k = some w)) := by
  intro L
  induction L with
  | nil =>
    intro fuel vA dA h h' V D hrun hne hVnd hLnd hbound hv hdd
    cases fuel with
    | zero =>
      simp only [initFields, interp, asUnit] at hrun
      exact Except.noConfusion (congrArg Prod.fst hrun)
    | succ n =>
      simp only [initFields, interp, asUnit] at hrun
      have hh : h = h' := congrArg Prod.snd hrun
      subst hh
      refine ⟨V, D, hv, hdd, Heap.preserves_refl h _, ?_, ?_, ?_⟩
      · intro k
        rw [if_neg (by simp)]
      · intro k _
        rfl
      · intro k f hmem
        exact absurd hmem (List.not_mem_nil _)
  | cons hd0 rest ih =>
    obtain ⟨k0, f0⟩ := hd0
    intro fuel vA dA h h' V D hrun hne hVnd hLnd hbound hv hdd
    simp only [List.map_cons] at hLnd
    rcases List.nodup_cons.mp hLnd with ⟨hk0notin, hrestnd⟩
    have hbound0 : f0.storageKey = k0 := hbound (k0, f0) (List.mem_cons_self _ _)
    have hboundr : ∀ p ∈ rest, p.2.storageKey = p.1 :=
      fun p hp => hbound p (List.mem_cons_of_mem _ hp)
    have hvlt : vA < h.size := Heap.get?_some_lt hv
    have hdlt : dA < h.size := Heap.get?_some_lt hdd
    cases fuel with
    | zero =>
      simp only [initFields, interp, asUnit] at hrun
      exact Except.noConfusion (congrArg Prod.fst hrun)
    | succ n =>
      rcases hget : assocGet V k0 with _ | v0
      · -- the field name is absent from the values dict: typed read then typed write
        rcases hg : interp n (.getF f0 dA) h with ⟨erg, h2g⟩
        rcases erg with e | og
        · simp only [initFields, interp, hv, hget, hg, asVal, asUnit] at hrun
          exact Except.noConfusion (congrArg Prod.fst hrun)
        · rcases og with v | _ | vsg
          case unit =>
            simp only [initFields, interp, hv, hget, hg, asVal, asUnit] at hrun
            exact Except.noConfusion (congrArg Prod.fst hrun)
          case vals =>
            simp only [initFields, interp, hv, hget, hg, asVal, asUnit] at hrun
            exact Except.noConfusion (congrArg Prod.fst hrun)
          case val =>
            rcases hs : interp n (.setF f0 dA v) h2g with ⟨ers, h3⟩
            rcases ers with e | os
            · simp only [initFields, interp, hv, hget, hg, asVal, hs, asUnit] at hrun
              exact Except.noConfusion (congrArg Prod.fst hrun)
            · rcases os with v2 | _ | vs2
              case val =>
                simp only [initFields, interp, hv, hget, hg, asVal, hs, asUnit] at hrun
                exact Except.noConfusion (congrArg Prod.fst hrun)
              case vals =>
                simp only [initFields, interp, hv, hget, hg, asVal, hs, asUnit] at hrun
                exact Except.noConfusion (congrArg Prod.fst hrun)
              case unit =>
                simp only [initFields, interp, hv, hget, hg, asVal, hs, asUnit] at hrun
                have hrun2 : initFields n rest vA dA h3 = (.ok (), h') := hrun
                cases n with
                | zero =>
                  simp only [interp] at hg
                  exact Except.noConfusion (congrArg Prod.fst hg)
                | succ m =>
                  have hpg : Heap.preserves h h2g [] := by
                    have hp := interp_preserves (m + 1) (.getF f0 dA) h
                    rw [hg] at hp
                    exact hp
                  have hvlt2 : vA < h2g.size := Nat.lt_of_lt_of_le hvlt hpg.1
                  have hdlt2 : dA < h2g.size := Nat.lt_of_lt_of_le hdlt hpg.1
                  have hv2g : h2g.get? vA = some (.dict V) := by
                    rw [hpg.2 vA hvlt (List.not_mem_nil vA)]
                    exact hv
                  have hd2g : h2g.get? dA = some (.dict D) := by
                    rw [hpg.2 dA hdlt (List.not_mem_nil dA)]
                    exact hdd
                  have hfg : fieldGet (m + 1) f0 dA h = (.ok v, h2g) := by
                    simp only [fieldGet, hg, asVal]
                  have hfs : fieldSet (m + 1) f0 dA v h2g = (.ok (), h3) := by
                    simp only [fieldSet, hs, asUnit]
                  obtain ⟨w, hmid, D1, hp_mid, hdmid, h3eq, hdisj⟩ :=
                    fieldSet_ok_inv m f0 dA v h2g h3 hfs
                  have hD1 : D1 = D := by
                    rw [hp_mid.2 dA hdlt2 (List.not_mem_nil dA), hd2g] at hdmid
                    injection hdmid with ho
                    injection ho with hD
                    exact hD.symm
                  rw [hD1, hbound0] at h3eq
                  have hdlt3 : dA < hmid.size := Nat.lt_of_lt_of_le hdlt2 hp_mid.1
                  have hvlt3 : vA < hmid.size := Nat.lt_of_lt_of_le hvlt2 hp_mid.1
                  have hv3 : h3.get? vA = some (.dict V) := by
                    rw [h3eq, Heap.get?_set_ne hmid _ (Ne.symm hne),
                      hp_mid.2 vA hvlt2 (List.not_mem_nil vA)]
                    exact hv2g
                  have hd3 : h3.get? dA = some (.dict (assocSet D k0 w)) := by
                    rw [h3eq]
                    exact Heap.get?_set_self _ hdlt3
                  have p1 : Heap.preserves h h2g [vA, dA] :=
                    Heap.preserves_mono (fun a ha => absurd ha (List.not_mem_nil a)) hpg
                  have p2 : Heap.preserves h2g hmid [vA, dA] :=
                    Heap.preserves_mono (fun a ha => absurd ha (List.not_mem_nil a)) hp_mid
                  have p3 : Heap.preserves hmid h3 [vA, dA] := by
                    rw [h3eq]
                    exact Heap.preserves_set_mem hmid dA _ _ (by simp)
                  have pchain : Heap.preserves h h3 [vA, dA] :=
                    Heap.preserves_trans_same (Heap.preserves_trans_same p1 p2) p3
                  obtain ⟨V2, D2, hv4, hd4, hpres34, hVchar, hDchar, hFields⟩ :=
                    ih (m + 1) vA dA h3 h' V (assocSet D k0 w) hrun2 hne hVnd hrestnd
                      hboundr hv3 hd3
                  refine ⟨V2, D2, hv4, hd4,
                    Heap.preserves_trans_same pchain hpres34, ?_, ?_, ?_⟩
                  · intro k
                    by_cases hk : k = k0
                    · subst hk
                      have h1 := hVchar k
                      rw [if_neg hk0notin] at h1
                      rw [if_pos (by simp), h1, hget]
                    · have h1 := hVchar k
                      by_cases hkr : k ∈ rest.map Prod.fst
                      · rw [if_pos hkr] at h1
                        rw [if_pos (by simp [hkr])]
                        exact h1
                      · rw [if_neg hkr] at h1
                        rw [if_neg (by simp [hk, hkr])]
                        exact h1
                  · intro k hknot
                    have hknotr : k ∉ rest.map Prod.fst := fun hkr =>
                      hknot (by simp [hkr])
                    have hkne : k ≠ k0 := fun he => hknot (by simp [he])
                    rw [hDchar k hknotr, assocGet_assocSet, if_neg (fun he => hkne he.symm)]
                  · intro k f hmem
                    rcases List.mem_cons.mp hmem with heq | hmemr
                    · have hk : k = k0 := congrArg Prod.fst heq
                      have hf : f = f0 := congrArg Prod.snd heq
                      subst hk
                      subst hf
                      constructor
                      · intro v1 hvk
                        rw [hget] at hvk
                        exact Option.noConfusion hvk
                      · intro _
                        have hD2k : assocGet D2 k = some w := by
                          rw [hDchar k hk0notin, assocGet_assocSet, if_pos rfl]
                        refine ⟨m + 1, m, v, h, h2g, w, Heap.preserves_refl h _, hfg,
                          ?_, hD2k⟩
                        rcases hdisj with ⟨hnl, hwv, hmideq⟩ | ⟨hnn, htj⟩
                        · exact .inl ⟨hnl, hwv⟩
                        · exact .inr ⟨hnn, hmid, htj⟩
                    · have hkr : k ∈ rest.map Prod.fst := List.mem_map.mpr ⟨(k, f), hmemr, rfl⟩
                      obtain ⟨hpresent, habsent⟩ := hFields k f hmemr
                      constructor
                      · intro v1 hvk
                        obtain ⟨mj, w1, hD2k, hdis⟩ := hpresent v1 hvk
                        refine ⟨mj, w1, hD2k, ?_⟩
                        rcases hdis with hL | ⟨hnn, h1, hmid2, hp1, htj, hp2⟩
                        · exact .inl hL
                        · exact .inr ⟨hnn, h1, hmid2,
                            Heap.preserves_trans_same pchain hp1, htj, hp2⟩
                      · intro hvk
                        obtain ⟨mg, mj, v1, h1, h2, w1, hp1, hfg1, hdis, hD2k⟩ := habsent hvk
                        exact ⟨mg, mj, v1, h1, h2, w1,
                          Heap.preserves_trans_same pchain hp1, hfg1, hdis, hD2k⟩
      · -- the field name is present in the values dict: pop then typed write
        rcases hs : interp n (.setF f0 dA v0) (h.set vA (.dict (assocRemove V k0)))
          with ⟨ers, h3⟩
        rcases ers with e | os
        · simp only [initFields, interp, hv, hget, hs, asUnit] at hrun
          exact Except.noConfusion (congrArg Prod.fst hrun)
        · rcases os with v2 | _ | vs2
          case val =>
            simp only [initFields, interp, hv, hget, hs, asUnit] at hrun
            exact Except.noConfusion (congrArg Prod.fst hrun)
          case vals =>
            simp only [initFields, interp, hv, hget, hs, asUnit] at hrun
            exact Except.noConfusion (congrArg Prod.fst hrun)
          case unit =>
            simp only [initFields, interp, hv, hget, hs, asUnit] at hrun
            have hrun2 : initFields n rest vA dA h3 = (.ok (), h') := hrun
            cases n with
            | zero =>
              simp only [interp] at hs
              exact Except.noConfusion (congrArg Prod.fst hs)
            | succ m =>
              have hfs : fieldSet (m + 1) f0 dA v0
                  (h.set vA (.dict (assocRemove V k0))) = (.ok (), h3) := by
                simp only [fieldSet, hs, asUnit]
              obtain ⟨w, hmid, D1, hp_mid, hdmid, h3eq, hdisj⟩ :=
                fieldSet_ok_inv m f0 dA v0 (h.set vA (.dict (assocRemove V k0))) h3 hfs
              have hv2p : (h.set vA (.dict (assocRemove V k0))).get? vA
                  = some (.dict (assocRemove V k0)) :=
                Heap.get?_set_self _ hvlt
              have hd2p : (h.set vA (.dict (assocRemove V k0))).get? dA
                  = some (.dict D) := by
                rw [Heap.get?_set_ne h _ hne]
                exact hdd
              have hvlt2 : vA < (h.set vA (.dict (assocRemove V k0))).size := by
                rw [Heap.size_set]
                exact hvlt
              have hdlt2 : dA < (h.set vA (.dict (assocRemove V k0))).size := by
                rw [Heap.size_set]
                exact hdlt
              have hD1 : D1 = D := by
                rw [hp_mid.2 dA hdlt2 (List.not_mem_nil dA), hd2p] at hdmid
                injection hdmid with ho
                injection ho with hD
                exact hD.symm
              rw [hD1, hbound0] at h3eq
              have hdlt3 : dA < hmid.size := Nat.lt_of_lt_of_le hdlt2 hp_mid.1
              have hv3 : h3.get? vA = some (.dict (assocRemove V k0)) := by
                rw [h3eq, Heap.get?_set_ne hmid _ (Ne.symm hne),
                  hp_mid.2 vA hvlt2 (List.not_mem_nil vA)]
                exact hv2p
              have hd3 : h3.get? dA = some (.dict (assocSet D k0 w)) := by
                rw [h3eq]
                exact Heap.get?_set_self _ hdlt3
              have p1 : Heap.preserves h (h.set vA (.dict (assocRemove V k0))) [vA, dA] :=
                Heap.preserves_set_mem h vA _ _ (by simp)
              have p2 : Heap.preserves (h.set vA (.dict (assocRemove V k0))) hmid
                  [vA, dA] :=
                Heap.preserves_mono (fun a ha => absurd ha (List.not_mem_nil a)) hp_mid
              have p3 : Heap.preserves hmid h3 [vA, dA] := by
                rw [h3eq]
                exact Heap.preserves_set_mem hmid dA _ _ (by simp)
              have pchain : Heap.preserves h h3 [vA, dA] :=
                Heap.preserves_trans_same (Heap.preserves_trans_same p1 p2) p3
              obtain ⟨V2, D2, hv4, hd4, hpres34, hVchar, hDchar, hFields⟩ :=
                ih (m + 1) vA dA h3 h' (assocRemove V k0) (assocSet D k0 w) hrun2 hne
                  (keys_nodup_assocRemove V k0 hVnd) hrestnd hboundr hv3 hd3
              refine ⟨V2, D2, hv4, hd4,
                Heap.preserves_trans_same pchain hpres34, ?_, ?_, ?_⟩
              · intro k
                by_cases hk : k = k0
                · subst hk
                  have h1 := hVchar k
                  rw [if_neg hk0notin, assocGet_assocRemove_self V k hVnd] at h1
                  rw [if_pos (by simp), h1]
                · have h1 := hVchar k
                  rw [assocGet_assocRemove_ne V k0 k (fun he => hk he.symm)] at h1
                  by_cases hkr : k ∈ rest.map Prod.fst
                  · rw [if_pos hkr] at h1
                    rw [if_pos (by simp [hkr])]
                    exact h1
                  · rw [if_neg hkr] at h1
                    rw [if_neg (by simp [hk, hkr])]
                    exact h1
              · intro k hknot
                have hknotr : k ∉ rest.map Prod.fst := fun hkr => hknot (by simp [hkr])
                have hkne : k ≠ k0 := fun he => hknot (by simp [he])
                rw [hDchar k hknotr, assocGet_assocSet, if_neg (fun he => hkne he.symm)]
              · intro k f hmem
                rcases List.mem_cons.mp hmem with heq | hmemr
                · have hk : k = k0 := congrArg Prod.fst heq
                  have hf : f = f0 := congrArg Prod.snd heq
                  subst hk
                  subst hf
                  constructor
                  · intro v1 hvk
                    rw [hget] at hvk
                    injection hvk with hvv
                    subst hvv
                    have hD2k : assocGet D2 k = some w := by
                      rw [hDchar k hk0notin, assocGet_assocSet, if_pos rfl]
                    refine ⟨m, w, hD2k, ?_⟩
                    rcases hdisj with ⟨hnl, hwv, hmideq⟩ | ⟨hnn, htj⟩
                    · exact .inl ⟨hnl, hwv⟩
                    · exact .inr ⟨hnn, h.set vA (.dict (assocRemove V k)), hmid, p1,
                        htj, Heap.preserves_trans_same p3 hpres34⟩
                  · intro hnone
                    rw [hget] at hnone
                    exact Option.noConfusion hnone
                · have hkr : k ∈ rest.map Prod.fst := List.mem_map.mpr ⟨(k, f), hmemr, rfl⟩
                  have hkne : k ≠ k0 := fun he => hk0notin (he ▸ hkr)
                  obtain ⟨hpresent, habsent⟩ := hFields k f hmemr
                  constructor
                  · intro v1 hvk
                    have hvk2 : assocGet (assocRemove V k0) k = some v1 := by
                      rw [assocGet_assocRemove_ne V k0 k (fun he => hkne he.symm)]
                      exact hvk
                    obtain ⟨mj, w1, hD2k, hdis⟩ := hpresent v1 hvk2
                    refine ⟨mj, w1, hD2k, ?_⟩
                    rcases hdis with hL | ⟨hnn, h1, hmid2, hp1, htj, hp2⟩
                    · exact .inl hL
                    · exact .inr ⟨hnn, h1, hmid2,
                        Heap.preserves_trans_same pchain hp1, htj, hp2⟩
                  · intro hvk
                    have hvk2 : assocGet (assocRemove V k0) k = none := by
                      rw [assocGet_assocRemove_ne V k0 k (fun he => hkne he.symm)]
                      exact hvk
                    obtain ⟨mg, mj, v1, h1, h2, w1, hp1, hfg1, hdis, hD2k⟩ := habsent hvk2
                    exact ⟨mg, mj, v1, h1, h2, w1,
                      Heap.preserves_trans_same pchain hp1, hfg1, hdis, hD2k⟩

/-- C1: record construction. For every schema and every (non-empty,
duplicate-free) input values dict, a successful construction returns a
record whose backing dict is fresh, and for each declared field: a
present key is removed from the values dict and its value is stored
through the typed write path (the to-json conversion runs on non-null
values, null is stored verbatim); an absent key triggers a typed read
(default materialization included) whose result is written back through
the typed write path; either way the backing dict holds an entry for
the field. Keys not declared in the schema are left in the values dict
and do not reach the backing dict. -/
theorem c1_record_construction (fuel : Nat) (cls : MappingCls) (vA : Nat)
    (h h' : Heap) (r : Val) (V : List (String × Val))
    (hrun : mappingInit (fuel + 1) cls (some vA) h = (.ok r, h'))
    (hv : h.get? vA = some (.dict V)) (hVne : V ≠ [])
    (hVnd : (V.map Prod.fst).Nodup)
    (hnd : (cls.fields.map Prod.fst).Nodup)
    (hbound : ∀ p ∈ cls.fields, p.2.storageKey = p.1) :
    ∃ dA V2 D2, r = .record cls dA ∧
      h'.get? vA = some (.dict V2) ∧ h'.get? dA = some (.dict D2) ∧
      (∀ k, k ∈ cls.fields.map Prod.fst → assocGet V2 k = none) ∧
      (∀ k, k ∉ cls.fields.map Prod.fst →
        assocGet V2 k = assocGet V k ∧ assocGet D2 k = none) ∧
      (∀ k f, (k, f) ∈ cls.fields →
        (∀ v, assocGet V k = some v →
          ∃ mj w, assocGet D2 k = some w ∧
            ((v.isNull = true ∧ w = v) ∨
             (v.isNull = false ∧ ∃ h1 hmid, toJson mj f v h1 = (.ok w, hmid)))) ∧
        (assocGet V k = none →
          ∃ mg mj v h1 h2 w, fieldGet mg f dA h1 = (.ok v, h2) ∧
            ((v.isNull = true ∧ w = v) ∨
             (v.isNull = false ∧ ∃ hmid, toJson mj f v h2 = (.ok w, hmid))) ∧
            assocGet D2 k = some w)) := by
  obtain ⟨v00, V0, hVeq⟩ : ∃ a l, V = a :: l := by
    cases V with
    | nil => exact absurd rfl hVne
    | cons a l => exact ⟨a, l, rfl⟩
  have hvlt : vA < h.size := Heap.get?_some_lt hv
  rcases hif : interp fuel (.initFlds cls.fields vA h.cells.length)
      ⟨h.cells ++ [Obj.dict []]⟩ with ⟨eri, h4⟩
  rcases eri with e | oi
  · simp only [mappingInit, interp, hv, hVeq, List.isEmpty_cons, Bool.false_eq_true,
      if_false, Heap.alloc, hif, asUnit, asVal] at hrun
    exact Except.noConfusion (congrArg Prod.fst hrun)
  · rcases oi with vi | _ | vsi
    case val =>
      simp only [mappingInit, interp, hv, hVeq, List.isEmpty_cons, Bool.false_eq_true,
        if_false, Heap.alloc, hif, asUnit, asVal] at hrun
      exact Except.noConfusion (congrArg Prod.fst hrun)
    case vals =>
      simp only [mappingInit, interp, hv, hVeq, List.isEmpty_cons, Bool.false_eq_true,
        if_false, Heap.alloc, hif, asUnit, asVal] at hrun
      exact Except.noConfusion (congrArg Prod.fst hrun)
    case unit =>
      simp only [mappingInit, interp, hv, hVeq, List.isEmpty_cons, Bool.false_eq_true,
        if_false, Heap.alloc, hif, asUnit, asVal, Prod.mk.injEq, Except.ok.injEq] at hrun
      obtain ⟨hr, hh⟩ := hrun
      have hrun2 : initFields fuel cls.fields vA h.cells.length
          ⟨h.cells ++ [Obj.dict []]⟩ = (.ok (), h4) := by
        simp only [initFields, hif, asUnit]
      have h3v : (⟨h.cells ++ [Obj.dict []]⟩ : Heap).get? vA = some (.dict V) := by
        rw [show (⟨h.cells ++ [Obj.dict []]⟩ : Heap) = (h.alloc (Obj.dict [])).2 from rfl,
          Heap.get?_alloc_lt h (Obj.dict []) hvlt]
        exact hv
      have h3d : (⟨h.cells ++ [Obj.dict []]⟩ : Heap).get? h.cells.length
          = some (.dict []) :=
        Heap.get?_alloc_self h (Obj.dict [])
      obtain ⟨V2, D2, hv4, hd4, hpres, hVchar, hDchar, hFields⟩ :=
        initFields_spec cls.fields fuel vA h.cells.length ⟨h.cells ++ [Obj.dict []]⟩ h4
          V [] hrun2 (Nat.ne_of_lt hvlt) hVnd hnd hbound h3v h3d
      rw [← hh]
      refine ⟨h.cells.length, V2, D2, hr.symm, hv4, hd4, ?_, ?_, ?_⟩
      · intro k hk
        rw [hVchar k, if_pos hk]
      · intro k hk
        refine ⟨?_, ?_⟩
        · rw [hVchar k, if_neg hk]
        · rw [hDchar k hk]
          rfl
      · intro k f hmem
        obtain ⟨hpresent, habsent⟩ := hFields k f hmem
        constructor
        · intro v hvk
          obtain ⟨mj, w, hD2k, hdis⟩ := hpresent v hvk
          refine ⟨mj, w, hD2k, ?_⟩
          rcases hdis with hL | ⟨hnn, h1, hmid, hp1, htj, hp2⟩
          · exact .inl hL
          · exact .inr ⟨hnn, h1, hmid, htj⟩
        · intro hvk
          obtain ⟨mg, mj, v, h1, h2, w, hp1, hfg, hdis, hD2k⟩ := habsent hvk
          exact ⟨mg, mj, v, h1, h2, w, hfg, hdis, hD2k⟩

theorem c1_record_construction_witness :
    ∃ dA V2 D2, (Val.record c1Cls 1 : Val) = .record c1Cls dA ∧
      (⟨[.dict [], .dict [("name", .strV "John"), ("age", .null)]]⟩ : Heap).get? 0
        = some (.dict V2) ∧
      (⟨[.dict [], .dict [("name", .strV "John"), ("age", .null)]]⟩ : Heap).get? dA
        = some (.dict D2) ∧
      (∀ k, k ∈ c1Cls.fields.map Prod.fst → assocGet V2 k = none) ∧
      (∀ k, k ∉ c1Cls.fields.map Prod.fst →
        assocGet V2 k = assocGet [("name", Val.strV "John")] k ∧ assocGet D2 k = none) ∧
      (∀ k f, (k, f) ∈ c1Cls.fields →
        (∀ v, assocGet [("name", Val.strV "John")] k = some v →
          ∃ mj w, assocGet D2 k = some w ∧
            ((v.isNull = true ∧ w = v) ∨
             (v.isNull = false ∧ ∃ h1 hmid, toJson mj f v h1 = (.ok w, hmid)))) ∧
        (assocGet [("name", Val.strV "John")] k = none →
          ∃ mg mj v h1 h2 w, fieldGet mg f dA h1 = (.ok v, h2) ∧
            ((v.isNull = true ∧ w = v) ∨
             (v.isNull = false ∧ ∃ hmid, toJson mj f v h2 = (.ok w, hmid))) ∧
            assocGet D2 k = some w)) :=
  c1_record_construction 9 c1Cls 0 c1Heap
    ⟨[.dict [], .dict [("name", .strV "John"), ("age", .null)]]⟩
    (.record c1Cls 1) [("name", .strV "John")] rfl rfl (by simp)
    (by simp) (by decide) (by decide)

theorem assocGet_some_mem_keys {α : Type} (es : List (String × α)) (k : String) (v : α)
    (hg : assocGet es k = some v) : k ∈ es.map Prod.fst := by
  induction es with
  | nil => exact Option.noConfusion hg
  | cons e rest ih =>
    obtain ⟨k2, v2⟩ := e
    by_cases hk : k2 = k
    · subst hk
      simp
    · simp only [assocGet, if_neg hk] at hg
      simp [ih hg]

/-- C2: round-trip. For a record built from a values dict whose keys are
all declared fields and whose values are already-raw and well-formed
(RawFixed: they resolve to pure content without touching the
construction's working cells, and the typed-write conversion is the
identity on that content), unwrap returns the backing dict, which
agrees content-wise with the input dict on every input key, holds an
entry for every declared field (defaults included for the absent ones),
and holds no other keys. -/
theorem c2_round_trip (fuel : Nat) (cls : MappingCls) (vA : Nat)
    (h h' : Heap) (r : Val) (V : List (String × Val))
    (hrun : mappingInit (fuel + 1) cls (some vA) h = (.ok r, h'))
    (hv : h.get? vA = some (.dict V)) (hVne : V ≠ [])
    (hVnd : (V.map Prod.fst).Nodup)
    (hnd : (cls.fields.map Prod.fst).Nodup)
    (hbound : ∀ p ∈ cls.fields, p.2.storageKey = p.1)
    (hcover : ∀ k ∈ V.map Prod.fst, k ∈ cls.fields.map Prod.fst)
    (hraw : ∀ k f v, (k, f) ∈ cls.fields → assocGet V k = some v →
      ∃ p, RawFixed h [vA, h.size] f v p) :
    ∃ dA D2, unwrapVal r = .ok (.ref dA) ∧ h'.get? dA = some (.dict D2) ∧
      (∀ k v, assocGet V k = some v →
        ∃ w p nv nw, assocGet D2 k = some w ∧
          resolveVal nv h v = some p ∧ resolveVal nw h' w = some p) ∧
      (∀ k f, (k, f) ∈ cls.fields → ∃ w, assocGet D2 k = some w) ∧
      (∀ k, k ∉ cls.fields.map Prod.fst → assocGet D2 k = none) := by
  obtain ⟨v00, V0, hVeq⟩ : ∃ a l, V = a :: l := by
    cases V with
    | nil => exact absurd rfl hVne
    | cons a l => exact ⟨a, l, rfl⟩
  have hvlt : vA < h.size := Heap.get?_some_lt hv
  rcases hif : interp fuel (.initFlds cls.fields vA h.cells.length)
      ⟨h.cells ++ [Obj.dict []]⟩ with ⟨eri, h4⟩
  rcases eri with e | oi
  · simp only [mappingInit, interp, hv, hVeq, List.isEmpty_cons, Bool.false_eq_true,
      if_false, Heap.alloc, hif, asUnit, asVal] at hrun
    exact Except.noConfusion (congrArg Prod.fst hrun)
  · rcases oi with vi | _ | vsi
    case val =>
      simp only [mappingInit, interp, hv, hVeq, List.isEmpty_cons, Bool.false_eq_true,
        if_false, Heap.alloc, hif, asUnit, asVal] at hrun
      exact Except.noConfusion (congrArg Prod.fst hrun)
    case vals =>
      simp only [mappingInit, interp, hv, hVeq, List.isEmpty_cons, Bool.false_eq_true,
        if_false, Heap.alloc, hif, asUnit, asVal] at hrun
      exact Except.noConfusion (congrArg Prod.fst hrun)
    case unit =>
      simp only [mappingInit, interp, hv, hVeq, List.isEmpty_cons, Bool.false_eq_true,
        if_false, Heap.alloc, hif, asUnit, asVal, Prod.mk.injEq, Except.ok.injEq] at hrun
      obtain ⟨hr, hh⟩ := hrun
      subst hh
      have hrun2 : initFields fuel cls.fields vA h.cells.length
          ⟨h.cells ++ [Obj.dict []]⟩ = (.ok (), h4) := by
        simp only [initFields, hif, asUnit]
      have h3v : (⟨h.cells ++ [Obj.dict []]⟩ : Heap).get? vA = some (.dict V) := by
        rw [show (⟨h.cells ++ [Obj.dict []]⟩ : Heap) = (h.alloc (Obj.dict [])).2 from rfl,
          Heap.get?_alloc_lt h (Obj.dict []) hvlt]
        exact hv
      have h3d : (⟨h.cells ++ [Obj.dict []]⟩ : Heap).get? h.cells.length
          = some (.dict []) :=
        Heap.get?_alloc_self h (Obj.dict [])
      obtain ⟨V2, D2, hv4, hd4, hpres, hVchar, hDchar, hFields⟩ :=
        initFields_spec cls.fields fuel vA h.cells.length ⟨h.cells ++ [Obj.dict []]⟩ h4
          V [] hrun2 (Nat.ne_of_lt hvlt) hVnd hnd hbound h3v h3d
      have palloc : Heap.preserves h (⟨h.cells ++ [Obj.dict []]⟩ : Heap) [vA, h.size] :=
        Heap.preserves_alloc h (Obj.dict []) [vA, h.size]
      have presHH4 : Heap.preserves h h4 [vA, h.size] :=
        Heap.preserves_trans_same palloc hpres
      refine ⟨h.cells.length, D2, by rw [← hr]; rfl, hd4, ?_, ?_, ?_⟩
      · intro k v hvk
        have hkV : k ∈ V.map Prod.fst := assocGet_some_mem_keys V k v hvk
        obtain ⟨⟨k1, f⟩, hmem, hk1⟩ := List.mem_map.mp (hcover k hkV)
        subst hk1
        obtain ⟨hpresent, _⟩ := hFields k1 f hmem
        obtain ⟨mj, w, hD2k, hdis⟩ := hpresent v hvk
        obtain ⟨p, hRF⟩ := hraw k1 f v hmem hvk
        obtain ⟨nv, hnv⟩ := hRF.1
        rcases hdis with ⟨hnull, hwv⟩ | ⟨hnn, h1, hmid, hp1, htj, hp2⟩
        · refine ⟨w, p, nv, nv, hD2k, resolveAvoid_imp_resolveVal nv h _ v p hnv, ?_⟩
          rw [hwv]
          exact resolveAvoid_imp_resolveVal nv h4 _ v p
            (resolveAvoid_frame nv h h4 [vA, h.size] v p presHH4 hnv)
        · have hp1h : Heap.preserves h h1 [vA, h.size] :=
            Heap.preserves_trans_same palloc hp1
          obtain ⟨nw, hnw⟩ := hRF.2 mj h1 w hmid hp1h htj
          refine ⟨w, p, nv, nw, hD2k, resolveAvoid_imp_resolveVal nv h _ v p hnv, ?_⟩
          exact resolveAvoid_imp_resolveVal nw h4 _ w p
            (resolveAvoid_frame nw hmid h4 [vA, h.size] w p hp2 hnw)
      · intro k f hmem
        obtain ⟨hpresent, habsent⟩ := hFields k f hmem
        rcases hvk : assocGet V k with _ | v
        · obtain ⟨mg, mj, v, h1, h2, w, hp1, hfg, hdis, hD2k⟩ := habsent hvk
          exact ⟨w, hD2k⟩
        · obtain ⟨mj, w, hD2k, hdis⟩ := hpresent v hvk
          exact ⟨w, hD2k⟩
      · intro k hk
        rw [hDchar k hk]
        rfl

theorem c2_round_trip_witness :
    ∃ dA D2, unwrapVal (Val.record c1Cls 1) = .ok (.ref dA) ∧
      (⟨[.dict [], .dict [("name", .strV "John"), ("age", .null)]]⟩ : Heap).get? dA
        = some (.dict D2) ∧
      (∀ k v, assocGet [("name", Val.strV "John")] k = some v →
        ∃ w p nv nw, assocGet D2 k = some w ∧
          resolveVal nv c1Heap v = some p ∧
          resolveVal nw (⟨[.dict [], .dict [("name", .strV "John"), ("age", .null)]]⟩ : Heap)
            w = some p) ∧
      (∀ k f, (k, f) ∈ c1Cls.fields → ∃ w, assocGet D2 k = some w) ∧
      (∀ k, k ∉ c1Cls.fields.map Prod.fst → assocGet D2 k = none) :=
  c2_round_trip 9 c1Cls 0 c1Heap
    ⟨[.dict [], .dict [("name", .strV "John"), ("age", .null)]]⟩
    (.record c1Cls 1) [("name", .strV "John")] rfl rfl (by simp)
    (by simp) (by decide) (by decide) (by decide)
    (by
      intro k f v hmem hvk
      have hflds : c1Cls.fields = [("name", Field.mk (some "name") none .text),
          ("age", Field.mk (some "age") none .intK)] := rfl
      rw [hflds] at hmem
      rcases List.mem_cons.mp hmem with heq | hmem2
      · have hk : k = "name" := congrArg Prod.fst heq
        have hf : f = Field.mk (some "name") none .text := congrArg Prod.snd heq
        subst hk
        subst hf
        have hveq : some (Val.strV "John") = some v := hvk
        injection hveq with hveq2
        subst hveq2
        refine ⟨.strV "John", ⟨1, rfl⟩, ?_⟩
        intro fuelx h1 w h2 hp htj
        cases fuelx with
        | zero =>
          simp only [toJson, interp, asVal] at htj
          exact Except.noConfusion (congrArg Prod.fst htj)
        | succ mx =>
          have htj2 : ((Except.ok (Val.strV (pyToStr (Val.strV "John"))), h1) : RVal)
              = (Except.ok w, h2) := by
            rw [← htj]
            rfl
          have hw2 : Val.strV (pyToStr (Val.strV "John")) = w :=
            Except.ok.inj (congrArg Prod.fst htj2)
          have hh2 : h1 = h2 := congrArg Prod.snd htj2
          refine ⟨1, ?_⟩
          rw [← hh2, ← hw2]
          rfl
      · rcases List.mem_cons.mp hmem2 with heq | hmem3
        · have hk : k = "age" := congrArg Prod.fst heq
          subst hk
          have hveq : (none : Option Val) = some v := hvk
          exact Option.noConfusion hveq
        · exact absurd hmem3 (List.not_mem_nil _))

end JsonMapper
